import Mathlib

/-!
# Verification of the dead-simple-email-downloader pipeline core

Shallow embedding of the pure computational core of the repository
(`pysrc/helpers/shortcodes.py`, `pysrc/helpers/outlook/indexing.py`,
`pysrc/helpers/outlook/outputting.py`, `pysrc/helpers/outlook/downloading.py`)
together with theorems settling the specification claims about it.

Python data is modelled as follows: `str` values are Lean `String`s (or their
`List Char` of code points where character-level reasoning is needed), `bytes`
are `List Nat`, `int` is `Int`, JSON values are the inductive `JValue`,
Python dicts are insertion-ordered association lists, the filesystem of
checkpoint files is an association list from paths to the JSON value stored
there, and a remote call that can fail is an `Option` response.  Fallible
Python code (uncaught `KeyError`/`TypeError`) is modelled with `Except PyErr`.
-/

namespace DSED

/-! ## Python dict / association-list primitives

Python dicts preserve insertion order; updating an existing key keeps its
position, inserting a new key appends at the end. -/

/-- `d.get(k)` on an insertion-ordered dict. -/
def assoc_get {α : Type} (m : List (String × α)) (k : String) : Option α :=
  match m with
  | [] => none
  | (k', v) :: rest => if k' = k then some v else assoc_get rest k

/-- `d[k] = v` on an insertion-ordered dict. -/
def assoc_set {α : Type} (m : List (String × α)) (k : String) (v : α) :
    List (String × α) :=
  match m with
  | [] => [(k, v)]
  | (k', v') :: rest =>
    if k' = k then (k', v) :: rest else (k', v') :: assoc_set rest k v

theorem assoc_get_of_not_mem {α : Type} (m : List (String × α)) (k : String)
    (h : k ∉ m.map Prod.fst) : assoc_get m k = none := by
  induction m with
  | nil => rfl
  | cons p rest ih =>
    simp only [List.map_cons, List.mem_cons] at h
    push_neg at h
    simp only [assoc_get, if_neg (Ne.symm h.1), ih h.2]

theorem assoc_set_of_not_mem {α : Type} (m : List (String × α)) (k : String)
    (v : α) (h : k ∉ m.map Prod.fst) : assoc_set m k v = m ++ [(k, v)] := by
  induction m with
  | nil => rfl
  | cons p rest ih =>
    simp only [List.map_cons, List.mem_cons] at h
    push_neg at h
    simp only [assoc_set, if_neg (Ne.symm h.1), ih h.2, List.cons_append]

theorem assoc_get_mem {α : Type} (m : List (String × α)) (k : String) (v : α)
    (h : assoc_get m k = some v) : (k, v) ∈ m := by
  induction m with
  | nil => simp [assoc_get] at h
  | cons p rest ih =>
    obtain ⟨k', v'⟩ := p
    simp only [assoc_get] at h
    by_cases hk : k' = k
    · subst hk
      rw [if_pos rfl] at h
      rw [Option.some_inj] at h
      subst h
      exact List.mem_cons_self _ _
    · rw [if_neg hk] at h
      exact List.mem_cons_of_mem _ (ih h)

theorem assoc_get_of_mem {α : Type} (m : List (String × α)) (k : String) (v : α)
    (hm : (k, v) ∈ m) (hnd : (m.map Prod.fst).Nodup) : assoc_get m k = some v := by
  induction m with
  | nil => simp at hm
  | cons p rest ih =>
    obtain ⟨k', v'⟩ := p
    simp only [List.map_cons, List.nodup_cons] at hnd
    rcases List.mem_cons.mp hm with h | h
    · obtain ⟨rfl, rfl⟩ := Prod.mk.inj h.symm
      simp [assoc_get]
    · have hk : k' ≠ k := by
        intro hkk
        subst hkk
        exact hnd.1 (List.mem_map.mpr ⟨(k', v), h, rfl⟩)
      simp only [assoc_get, if_neg hk]
      exact ih h hnd.2

/-! ## Identifier Shortcoder (`pysrc/helpers/shortcodes.py`)

`build_shortcode_map` is parameterized by the digest function standing for
`hashlib.sha256(...).hexdigest()`, which is external library code; everything
else is translated line by line.  `raise ValueError` is modelled as `none`. -/

def SHORTCODE_PREFIX : String := "__"

def SHORTCODE_SUFFIX : String := "__"

def SHORTCODE_LENGTH_STEPS : List Nat := [8, 12, 16, 20, 24, 32, 40, 64]

/-- The first loop of `build_shortcode_map`: collect the non-empty,
not-yet-seen values in order (`seen` is the accumulator set). -/
def dedup_ids : List String → List String → List String
  | [], _ => []
  | v :: rest, seen =>
    if v = "" ∨ v ∈ seen then dedup_ids rest seen
    else v :: dedup_ids rest (v :: seen)

/-- `f"{SHORTCODE_PREFIX}{digests[value][:length]}{SHORTCODE_SUFFIX}"`. -/
def shortcode_of (hash : String → String) (length : Nat) (v : String) : String :=
  SHORTCODE_PREFIX ++ (hash v).take length ++ SHORTCODE_SUFFIX

/-- The inner `for value in ids` loop trying one candidate length: build
`shortcode_to_id`, returning `none` as soon as a collision is found.
Python's `if existing and existing != value` treats the empty string as
falsy, hence the extra `existing ≠ ""` condition. -/
def try_shortcode_length (hash : String → String) (length : Nat) :
    List String → List (String × String) → Option (List (String × String))
  | [], acc => some acc
  | v :: rest, acc =>
    let sc := shortcode_of hash length v
    match assoc_get acc sc with
    | some existing =>
      if existing ≠ "" ∧ existing ≠ v then none
      else try_shortcode_length hash length rest (assoc_set acc sc v)
    | none => try_shortcode_length hash length rest (assoc_set acc sc v)

/-- `{value: shortcode for shortcode, value in shortcode_to_id.items()}`:
a dict comprehension is an insertion-ordered fold of dict assignments. -/
def invert_shortcode_map (m : List (String × String)) : List (String × String) :=
  m.foldl (fun acc p => assoc_set acc p.2 p.1) []

/-- The `for length in SHORTCODE_LENGTH_STEPS` loop of `build_shortcode_map`. -/
def build_shortcode_loop (hash : String → String) (ids : List String) :
    List Nat → Option (List (String × String) × List (String × String) × Nat)
  | [] => none
  | length :: rest =>
    match try_shortcode_length hash length ids [] with
    | some shortcode_to_id =>
      some (invert_shortcode_map shortcode_to_id, shortcode_to_id, length)
    | none => build_shortcode_loop hash ids rest

/-- `build_shortcode_map(values)` from `pysrc/helpers/shortcodes.py`,
returning `(id_to_shortcode, shortcode_to_id, length)`; `none` models the
final `raise ValueError`. -/
def build_shortcode_map (hash : String → String) (values : List String) :
    Option (List (String × String) × List (String × String) × Nat) :=
  let ids := dedup_ids values []
  if ids.isEmpty then some ([], [], 0)
  else build_shortcode_loop hash ids SHORTCODE_LENGTH_STEPS

theorem dedup_ids_sublist (l : List String) (seen : List String) :
    (dedup_ids l seen).Sublist l := by
  induction l generalizing seen with
  | nil => simp [dedup_ids]
  | cons v rest ih =>
    simp only [dedup_ids]
    split
    · exact (ih seen).cons v
    · exact (ih (v :: seen)).cons₂ v

theorem dedup_ids_not_seen (l : List String) (seen : List String) :
    ∀ v ∈ dedup_ids l seen, v ≠ "" ∧ v ∉ seen := by
  induction l generalizing seen with
  | nil => simp [dedup_ids]
  | cons x rest ih =>
    intro v hv
    simp only [dedup_ids] at hv
    split at hv
    · exact ih seen v hv
    · rename_i hcond
      push_neg at hcond
      rcases List.mem_cons.mp hv with rfl | h
      · exact hcond
      · have := ih (x :: seen) v h
        exact ⟨this.1, fun hs => this.2 (List.mem_cons_of_mem _ hs)⟩

theorem dedup_ids_nodup (l : List String) (seen : List String) :
    (dedup_ids l seen).Nodup := by
  induction l generalizing seen with
  | nil => simp [dedup_ids]
  | cons x rest ih =>
    simp only [dedup_ids]
    split
    · exact ih seen
    · refine List.nodup_cons.mpr ⟨fun hmem => ?_, ih (x :: seen)⟩
      exact (dedup_ids_not_seen rest (x :: seen) x hmem).2 (List.mem_cons_self _ _)

theorem assoc_get_none_not_mem {α : Type} (m : List (String × α)) (k : String)
    (h : assoc_get m k = none) : k ∉ m.map Prod.fst := by
  induction m with
  | nil => simp
  | cons p rest ih =>
    simp only [assoc_get] at h
    by_cases hk : p.1 = k
    · simp [hk] at h
    · rw [if_neg hk] at h
      simp only [List.map_cons, List.mem_cons]
      push_neg
      exact ⟨Ne.symm hk, ih h⟩

theorem try_shortcode_length_spec (hash : String → String) (length : Nat) :
    ∀ (ids : List String) (acc m : List (String × String)),
    try_shortcode_length hash length ids acc = some m →
    ids.Nodup →
    (∀ v ∈ ids, v ≠ "" ∧ v ∉ acc.map Prod.snd) →
    (∀ p ∈ acc, p.2 ≠ "") →
    (acc.map Prod.fst).Nodup →
    (acc.map Prod.snd).Nodup →
    m = acc ++ ids.map (fun v => (shortcode_of hash length v, v)) ∧
      (m.map Prod.fst).Nodup := by
  intro ids
  induction ids with
  | nil =>
    intro acc m hm _ _ _ hk _
    simp only [try_shortcode_length] at hm
    obtain rfl := Option.some_inj.mp hm
    simpa using hk
  | cons v rest ih =>
    intro acc m hm hnd hids hne hkeys hvals
    have hv := hids v (List.mem_cons_self _ _)
    simp only [try_shortcode_length] at hm
    set sc := shortcode_of hash length v with hsc
    rcases hget : assoc_get acc sc with _ | existing
    · -- fresh key: the entry is appended and we recurse
      rw [hget] at hm
      have hfresh : sc ∉ acc.map Prod.fst := assoc_get_none_not_mem acc sc hget
      have hset : assoc_set acc sc v = acc ++ [(sc, v)] :=
        assoc_set_of_not_mem acc sc v hfresh
      rw [hset] at hm
      have hrec := ih (acc ++ [(sc, v)]) m hm (List.nodup_cons.mp hnd).2
        (by
          intro w hw
          have := hids w (List.mem_cons_of_mem _ hw)
          refine ⟨this.1, ?_⟩
          simp only [List.map_append, List.mem_append, List.map_cons, List.map_nil,
            List.mem_singleton]
          push_neg
          refine ⟨this.2, ?_⟩
          intro hwv
          exact (List.nodup_cons.mp hnd).1 (hwv ▸ hw))
        (by
          intro p hp
          rcases List.mem_append.mp hp with h | h
          · exact hne p h
          · obtain rfl := List.mem_singleton.mp h
            exact hv.1)
        (by
          simp only [List.map_append, List.map_cons, List.map_nil]
          exact List.nodup_append.mpr ⟨hkeys, List.nodup_singleton _,
            by simpa using fun hmem => hfresh hmem⟩)
        (by
          simp only [List.map_append, List.map_cons, List.map_nil]
          exact List.nodup_append.mpr ⟨hvals, List.nodup_singleton _,
            by simpa using fun hmem => hv.2 hmem⟩)
      refine ⟨?_, hrec.2⟩
      rw [hrec.1]
      simp [List.append_assoc]
    · -- key already present: since stored values are the nonempty ids already
      -- processed and `v` is new, this is a genuine collision and yields `none`
      rw [hget] at hm
      have hmem := assoc_get_mem acc sc existing hget
      have hexne : existing ≠ "" := hne _ hmem
      have hexv : existing ≠ v := by
        intro hev
        subst hev
        exact hv.2 (List.mem_map.mpr ⟨(sc, existing), hmem, rfl⟩)
      have hm' : (if existing ≠ "" ∧ existing ≠ v then none
          else try_shortcode_length hash length rest (assoc_set acc sc v)) = some m := hm
      rw [if_pos ⟨hexne, hexv⟩] at hm'
      exact absurd hm' (by simp)

theorem build_shortcode_loop_spec (hash : String → String) (ids : List String) :
    ∀ (steps : List Nat) (a b : List (String × String)) (n : Nat),
    build_shortcode_loop hash ids steps = some (a, b, n) →
    try_shortcode_length hash n ids [] = some b ∧ a = invert_shortcode_map b := by
  intro steps
  induction steps with
  | nil => intro a b n h; simp [build_shortcode_loop] at h
  | cons len rest ih =>
    intro a b n h
    simp only [build_shortcode_loop] at h
    rcases htry : try_shortcode_length hash len ids [] with _ | m
    · rw [htry] at h
      exact ih a b n h
    · rw [htry] at h
      obtain ⟨rfl, rfl, rfl⟩ := by
        have := Option.some_inj.mp h
        exact Prod.mk.inj_iff.mp this |>.imp id (fun h' => Prod.mk.inj_iff.mp h')
      exact ⟨htry, rfl⟩

theorem invert_shortcode_map_fold :
    ∀ (m acc : List (String × String)),
    (∀ p ∈ m, p.2 ∉ acc.map Prod.fst) →
    (m.map Prod.snd).Nodup →
    m.foldl (fun a p => assoc_set a p.2 p.1) acc = acc ++ m.map (fun p => (p.2, p.1)) := by
  intro m
  induction m with
  | nil => intro acc _ _; simp
  | cons p rest ih =>
    intro acc hfresh hnd
    simp only [List.foldl_cons]
    have hp : p.2 ∉ acc.map Prod.fst := hfresh p (List.mem_cons_self _ _)
    have hnd' : (p.2 :: rest.map Prod.snd).Nodup := by simpa using hnd
    rw [assoc_set_of_not_mem acc p.2 p.1 hp]
    rw [ih (acc ++ [(p.2, p.1)])
      (by
        intro q hq
        simp only [List.map_append, List.mem_append, List.map_cons, List.map_nil,
          List.mem_singleton]
        push_neg
        refine ⟨hfresh q (List.mem_cons_of_mem _ hq), ?_⟩
        intro hqp
        exact (List.nodup_cons.mp hnd').1 (hqp ▸ List.mem_map.mpr ⟨q, hq, rfl⟩))
      ((List.nodup_cons.mp hnd').2)]
    simp [List.append_assoc]

theorem assoc_vals_unique {α : Type} (m : List (String × α)) (k : String)
    (v w : α) (hnd : (m.map Prod.fst).Nodup) (hv : (k, v) ∈ m) (hw : (k, w) ∈ m) :
    v = w := by
  have h1 := assoc_get_of_mem m k v hv hnd
  have h2 := assoc_get_of_mem m k w hw hnd
  rw [h1] at h2
  exact Option.some_inj.mp h2

/-- **C1.** For every digest function and every finite list of ID strings on
which `build_shortcode_map` succeeds, the returned `id_to_shortcode` map is
injective (no two distinct IDs receive the same shortcode), its domain is
exactly the distinct non-empty IDs of the input list, `shortcode_to_id` is its
exact inverse, both maps have the same number of entries, and two invocations
on the same list yield identical results (the embedding is a pure function). -/
theorem build_shortcode_map_injective_inverse (hash : String → String)
    (values : List String)
    (id_to_shortcode shortcode_to_id : List (String × String)) (n : Nat)
    (h : build_shortcode_map hash values = some (id_to_shortcode, shortcode_to_id, n)) :
    (∀ a b s, assoc_get id_to_shortcode a = some s →
      assoc_get id_to_shortcode b = some s → a = b) ∧
    (∀ a s, assoc_get id_to_shortcode a = some s ↔
      assoc_get shortcode_to_id s = some a) ∧
    (∀ a, (assoc_get id_to_shortcode a).isSome ↔ a ∈ dedup_ids values []) ∧
    id_to_shortcode.length = shortcode_to_id.length ∧
    build_shortcode_map hash values = build_shortcode_map hash values := by
  simp only [build_shortcode_map] at h
  by_cases hemp : (dedup_ids values []).isEmpty
  · rw [if_pos hemp] at h
    obtain ⟨rfl, rfl, rfl⟩ := by
      have := Option.some_inj.mp h
      exact Prod.mk.inj_iff.mp this |>.imp id (fun h' => Prod.mk.inj_iff.mp h')
    refine ⟨by simp [assoc_get], by simp [assoc_get], ?_, rfl, rfl⟩
    intro a
    rw [List.isEmpty_iff] at hemp
    simp [assoc_get, hemp]
  · rw [if_neg hemp] at h
    set ids := dedup_ids values [] with hids
    obtain ⟨htry, hinv⟩ := build_shortcode_loop_spec hash ids _ _ _ _ h
    obtain ⟨hm, hknd⟩ := try_shortcode_length_spec hash n ids [] shortcode_to_id htry
      (dedup_ids_nodup values [])
      (by intro v hv; exact ⟨(dedup_ids_not_seen values [] v hv).1, by simp⟩)
      (by simp) (by simp) (by simp)
    rw [List.nil_append] at hm
    have hsnd : shortcode_to_id.map Prod.snd = ids := by
      rw [hm, List.map_map]
      simp [Function.comp_def]
    have hid2sc : id_to_shortcode = ids.map (fun v => (v, shortcode_of hash n v)) := by
      rw [hinv]
      have hfold := invert_shortcode_map_fold shortcode_to_id [] (by simp)
        (by rw [hsnd]; exact dedup_ids_nodup values [])
      simp only [invert_shortcode_map]
      rw [hfold, List.nil_append, hm, List.map_map]
      simp [Function.comp_def]
    have hidkeys : id_to_shortcode.map Prod.fst = ids := by
      rw [hid2sc, List.map_map]
      simp [Function.comp_def]
    have hidknd : (id_to_shortcode.map Prod.fst).Nodup := by
      rw [hidkeys]; exact dedup_ids_nodup values []
    have hmem_id2sc : ∀ a s, (a, s) ∈ id_to_shortcode ↔
        (a ∈ ids ∧ s = shortcode_of hash n a) := by
      intro a s
      rw [hid2sc]
      constructor
      · intro hmem
        obtain ⟨v, hv, heq⟩ := List.mem_map.mp hmem
        obtain ⟨rfl, rfl⟩ := Prod.mk.inj heq
        exact ⟨hv, rfl⟩
      · rintro ⟨ha, rfl⟩
        exact List.mem_map.mpr ⟨a, ha, rfl⟩
    have hmem_sc2id : ∀ a s, (s, a) ∈ shortcode_to_id ↔
        (a ∈ ids ∧ s = shortcode_of hash n a) := by
      intro a s
      rw [hm]
      constructor
      · intro hmem
        obtain ⟨v, hv, heq⟩ := List.mem_map.mp hmem
        obtain ⟨rfl, rfl⟩ := Prod.mk.inj heq
        exact ⟨hv, rfl⟩
      · rintro ⟨ha, rfl⟩
        exact List.mem_map.mpr ⟨a, ha, rfl⟩
    refine ⟨?_, ?_, ?_, ?_, rfl⟩
    · -- injectivity
      intro a b s hga hgb
      have hamem := (hmem_id2sc a s).mp (assoc_get_mem _ _ _ hga)
      have hbmem := (hmem_id2sc b s).mp (assoc_get_mem _ _ _ hgb)
      exact assoc_vals_unique shortcode_to_id s a b hknd
        ((hmem_sc2id a s).mpr hamem) ((hmem_sc2id b s).mpr hbmem)
    · -- exact inverse
      intro a s
      constructor
      · intro hga
        exact assoc_get_of_mem _ _ _
          ((hmem_sc2id a s).mpr ((hmem_id2sc a s).mp (assoc_get_mem _ _ _ hga))) hknd
      · intro hgs
        exact assoc_get_of_mem _ _ _
          ((hmem_id2sc a s).mpr ((hmem_sc2id a s).mp (assoc_get_mem _ _ _ hgs))) hidknd
    · -- domain is the distinct non-empty IDs
      intro a
      constructor
      · intro hsome
        obtain ⟨s, hs⟩ := Option.isSome_iff_exists.mp hsome
        exact ((hmem_id2sc a s).mp (assoc_get_mem _ _ _ hs)).1
      · intro ha
        rw [assoc_get_of_mem _ _ _ ((hmem_id2sc a _).mpr ⟨ha, rfl⟩) hidknd]
        rfl
    · rw [hid2sc, hm]
      simp

/-- Concrete witness for C1: with the identity digest and IDs `["a", "b"]`
the builder succeeds at length 8, and the two maps invert each other. -/
theorem build_shortcode_map_injective_inverse_witness :
    assoc_get [("a", "__a__"), ("b", "__b__")] "a" = some "__a__" ↔
      assoc_get [("__a__", "a"), ("__b__", "b")] "__a__" = some "a" :=
  (build_shortcode_map_injective_inverse (fun s => s) ["a", "b"]
    [("a", "__a__"), ("b", "__b__")] [("__a__", "a"), ("__b__", "b")] 8
    (by decide)).2.1 "a" "__a__"

/-! ## Subject truncation (`pysrc/helpers/outlook/outputting.py`, `_truncate_subject`)

Python strings are sequences of code points, so `value[:limit]` is
`value.toList.take limit` and `len` is the code-point count. -/

/-- `_truncate_subject(value, limit)`.  The `removed <= 0` branch is kept even
though it is unreachable (when `len(value) > limit`, at least one character is
always removed). -/
def _truncate_subject (value : String) (limit : Nat) : String :=
  if value.length ≤ limit then value
  else
    let trimmed := value.toList.take limit
    let trimmed :=
      if trimmed.getLast? = some '%' then trimmed.dropLast
      else if 2 ≤ trimmed.length ∧ trimmed.get? (trimmed.length - 2) = some '%' then
        trimmed.dropLast.dropLast
      else trimmed
    let removed := value.length - trimmed.length
    if removed = 0 then String.mk trimmed
    else String.mk trimmed ++ "...(" ++ toString removed ++ " more)"

/-- **C3 (counterexample).** The claim that the result never exceeds the
configured limit is false: a 40-character subject truncated with limit 36
yields a 47-character result, because the `...(N more)` suffix is appended
after cutting to the limit. -/
theorem _truncate_subject_exceeds_limit :
    36 < (_truncate_subject "aaaaaaaaaaaaaaaaaaaaaaaaaaaaaaaaaaaaaaaa" 36).length ∧
      (_truncate_subject "aaaaaaaaaaaaaaaaaaaaaaaaaaaaaaaaaaaaaaaa" 36).length = 47 := by
  constructor <;> decide

/-- **C3 (amended).** For every subject and limit: a subject within the limit
is returned unchanged; otherwise the result is a prefix of the subject of at
most `limit` characters followed by a `...(N more)` suffix stating exactly how
many characters were dropped (so the total may exceed the limit by the suffix
length); and when the cut prefix ends with a dangling `%`, that dangling
escape head is stripped before the suffix is appended. -/
theorem _truncate_subject_spec (value : String) (limit : Nat) :
    (value.length ≤ limit → _truncate_subject value limit = value) ∧
    (limit < value.length →
      ∃ t : List Char, t <+: value.toList ∧ t.length ≤ limit ∧
        0 < value.length - t.length ∧
        ((value.toList.take limit).getLast? = some '%' →
          t = (value.toList.take limit).dropLast) ∧
        _truncate_subject value limit =
          String.mk t ++ "...(" ++ toString (value.length - t.length) ++ " more)") := by
  constructor
  · intro hle
    simp [_truncate_subject, hle]
  · intro hlt
    have hnle : ¬ value.length ≤ limit := Nat.not_le.mpr hlt
    have hvlen : value.toList.length = value.length := by
      rw [← String.length_data]
      rfl
    set t0 := value.toList.take limit with ht0
    have ht0len : t0.length = limit := by
      rw [ht0, List.length_take, hvlen]
      exact Nat.min_eq_left (Nat.le_of_lt hlt)
    have ht0pre : t0 <+: value.toList := List.take_prefix _ _
    -- the three possible kept prefixes
    set t : List Char :=
      (if t0.getLast? = some '%' then t0.dropLast
       else if 2 ≤ t0.length ∧ t0.get? (t0.length - 2) = some '%' then
         t0.dropLast.dropLast
       else t0) with ht
    have htpre : t <+: value.toList := by
      rw [ht]
      split
      · exact (List.dropLast_prefix t0).trans ht0pre
      · split
        · exact ((List.dropLast_prefix _).trans (List.dropLast_prefix t0)).trans ht0pre
        · exact ht0pre
    have htlen : t.length ≤ limit := by
      rw [ht]
      split
      · rw [List.length_dropLast, ht0len]
        omega
      · split
        · rw [List.length_dropLast, List.length_dropLast, ht0len]
          omega
        · rw [ht0len]
    have hrem : 0 < value.length - t.length := by
      have := htlen
      omega
    refine ⟨t, htpre, htlen, hrem, ?_, ?_⟩
    · intro hpc
      rw [ht, if_pos hpc]
    · simp only [_truncate_subject, if_neg hnle]
      rw [← ht0, ← ht]
      have : ¬ value.length - t.length = 0 := by omega
      rw [if_neg this]

/-- Closed witness for the amended C3: a 10-character subject with limit 4
(cut prefix `"abc%"` ends in `%`, which is stripped) yields `"abc...(7 more)"`. -/
theorem _truncate_subject_spec_witness :
    _truncate_subject "abc%efghij" 4 = "abc" ++ "...(" ++ toString 7 ++ " more)" := by
  obtain ⟨t, _, _, _, hdang, heq⟩ := (_truncate_subject_spec "abc%efghij" 4).2 (by decide)
  have ht : t = ['a', 'b', 'c'] := by
    rw [hdang (by decide)]
    decide
  rw [heq, ht]
  decide

/-! ## Base64 decoding (`pysrc/helpers/outlook/indexing.py`, `_decode_conversation_index`)

`base64.b64decode` with `validate=False` discards characters outside the
alphabet, stops the data at the padding `'='`, fails (`binascii.Error`) when
the number of data characters is one more than a multiple of four, and packs
the 6-bit values into bytes.  The URL-safe variant differs only in the
alphabet.  `bytes` values are lists of byte values (`List Nat`). -/

/-- Value of a standard-alphabet base64 character. -/
def b64_char_val (c : Char) : Option Nat :=
  if 'A' ≤ c ∧ c ≤ 'Z' then some (c.toNat - 65)
  else if 'a' ≤ c ∧ c ≤ 'z' then some (c.toNat - 97 + 26)
  else if '0' ≤ c ∧ c ≤ '9' then some (c.toNat - 48 + 52)
  else if c = '+' then some 62
  else if c = '/' then some 63
  else none

/-- Value of a URL-safe-alphabet base64 character. -/
def b64_char_val_urlsafe (c : Char) : Option Nat :=
  if c = '-' then some 62
  else if c = '_' then some 63
  else if c = '+' ∨ c = '/' then none
  else b64_char_val c

/-- Pack a list of 6-bit values into bytes (a trailing single value is
guarandeed impossible by the `% 4 = 1` check of the decoder). -/
def b64_pack : List Nat → List Nat
  | a :: b :: c :: d :: rest =>
    (a * 4 + b / 16) :: ((b % 16) * 16 + c / 4) :: ((c % 4) * 64 + d) :: b64_pack rest
  | [a, b] => [a * 4 + b / 16]
  | [a, b, c] => [a * 4 + b / 16, (b % 16) * 16 + c / 4]
  | _ => []

/-- One `base64` decode pass over a given alphabet: keep alphabet characters
and `'='`, stop at the padding, fail if the data length is `1 (mod 4)`. -/
def b64_decode_with (val : Char → Option Nat) (s : List Char) : Option (List Nat) :=
  let kept := s.filter (fun c => (val c).isSome ∨ c = '=')
  let data := kept.takeWhile (fun c => c ≠ '=')
  if data.length % 4 = 1 then none
  else some (b64_pack (data.filterMap val))

/-! ## Python whitespace and `str.strip` -/

/-- The set of code points stripped by Python's `str.strip()`. -/
def py_is_space (c : Char) : Bool :=
  c.toNat ∈ [9, 10, 11, 12, 13, 28, 29, 30, 31, 32, 133, 160, 0x1680,
    0x2000, 0x2001, 0x2002, 0x2003, 0x2004, 0x2005, 0x2006, 0x2007, 0x2008,
    0x2009, 0x200a, 0x2028, 0x2029, 0x202f, 0x205f, 0x3000]

/-- Python `str.strip()` over a list of code points. -/
def py_strip_chars (s : List Char) : List Char :=
  ((s.dropWhile py_is_space).reverse.dropWhile py_is_space).reverse

/-- `_decode_conversation_index(b64)`: empty/missing input decodes to the
empty byte string; otherwise strip, pad to a multiple of four with `'='`, try
the standard alphabet and fall back to the URL-safe one; `none` models an
uncaught `binascii.Error`. -/
def _decode_conversation_index (b64 : String) : Option (List Nat) :=
  if b64 = "" then some []
  else
    let s := py_strip_chars b64.toList
    let s := s ++ List.replicate ((4 - s.length % 4) % 4) '='
    match b64_decode_with b64_char_val s with
    | some bs => some bs
    | none => b64_decode_with b64_char_val_urlsafe s

/-! ## Comparison keys for the threader

Python compares `bytes` and `str` lexicographically by element values and
tuples lexicographically by component; these are translated as Bool-valued
strict comparisons on `List Nat`, `Int` and the inner-key triple. -/

/-- Lexicographic strict comparison of byte strings (Python `bytes < bytes`;
also used for `str < str` on the lists of code points). -/
def bytes_lt : List Nat → List Nat → Bool
  | [], [] => false
  | [], _ :: _ => true
  | _ :: _, [] => false
  | a :: as, b :: bs =>
    if a < b then true else if b < a then false else bytes_lt as bs

/-- The sort key of the inner per-conversation sort:
`(idx_bytes, receivedEpoch, id)`, with the id as its code points. -/
abbrev MsgKey : Type := List Nat × Int × List Nat

/-- Python `int` comparison. -/
def int_lt (e e' : Int) : Bool := decide (e < e')

/-- Lexicographic combination of two strict comparisons: Python compares
tuples by the first differing component. -/
def lex2 {α β : Type} (ltA : α → α → Bool) (ltB : β → β → Bool)
    (p q : α × β) : Bool :=
  if ltA p.1 q.1 then true
  else if ltA q.1 p.1 then false
  else ltB p.2 q.2

/-- Python tuple comparison `<` on the inner key
`(idx_bytes, receivedEpoch, id)`. -/
def msg_key_lt (k k' : MsgKey) : Bool :=
  lex2 bytes_lt (lex2 int_lt bytes_lt) k k'

theorem bytes_lt_asymm : ∀ a b : List Nat, bytes_lt a b = true → bytes_lt b a = false := by
  intro a
  induction a with
  | nil => intro b h; cases b <;> simp [bytes_lt]
  | cons x as ih =>
    intro b h
    cases b with
    | nil => simp [bytes_lt] at h
    | cons y bs =>
      simp only [bytes_lt] at h ⊢
      rcases Nat.lt_trichotomy x y with hxy | hxy | hxy
      · rw [if_neg (by omega), if_pos hxy]
      · subst hxy
        rw [if_neg (by omega), if_neg (by omega)] at h ⊢
        exact ih bs h
      · rw [if_neg (by omega), if_pos hxy] at h
        exact absurd h (by simp)

theorem bytes_lt_eq_of_not_lt : ∀ a b : List Nat,
    bytes_lt a b = false → bytes_lt b a = false → a = b := by
  intro a
  induction a with
  | nil => intro b h _; cases b <;> simp_all [bytes_lt]
  | cons x as ih =>
    intro b h h'
    cases b with
    | nil => simp [bytes_lt] at h'
    | cons y bs =>
      simp only [bytes_lt] at h h'
      rcases Nat.lt_trichotomy x y with hxy | hxy | hxy
      · rw [if_pos hxy] at h; simp at h
      · subst hxy
        rw [if_neg (by omega), if_neg (by omega)] at h h'
        rw [ih bs h h']
      · rw [if_pos hxy] at h'; simp at h'

theorem bytes_lt_trans : ∀ a b c : List Nat,
    bytes_lt a b = true → bytes_lt b c = true → bytes_lt a c = true := by
  intro a
  induction a with
  | nil =>
    intro b c hab hbc
    cases b with
    | nil => simp [bytes_lt] at hab
    | cons y bs =>
      cases c with
      | nil => simp [bytes_lt] at hbc
      | cons z cs => simp [bytes_lt]
  | cons x as ih =>
    intro b c hab hbc
    cases b with
    | nil => simp [bytes_lt] at hab
    | cons y bs =>
      cases c with
      | nil => simp [bytes_lt] at hbc
      | cons z cs =>
        simp only [bytes_lt] at hab hbc ⊢
        rcases Nat.lt_trichotomy x y with hxy | hxy | hxy
        · rcases Nat.lt_trichotomy y z with hyz | hyz | hyz
          · rw [if_pos (by omega)]
          · subst hyz; rw [if_pos hxy]
          · rw [if_neg (by omega), if_pos hyz] at hbc
            exact absurd hbc (by simp)
        · subst hxy
          rcases Nat.lt_trichotomy x z with hyz | hyz | hyz
          · rw [if_pos hyz]
          · subst hyz
            rw [if_neg (by omega), if_neg (by omega)] at hab hbc ⊢
            exact ih bs cs hab hbc
          · rw [if_neg (by omega), if_pos hyz] at hbc
            exact absurd hbc (by simp)
        · rw [if_neg (by omega), if_pos hxy] at hab
          exact absurd hab (by simp)

/-- A Bool-valued strict total order: asymmetric, transitive, and connected
(two elements neither of which is below the other are equal). -/
structure IsStrictBool {α : Type} (lt : α → α → Bool) : Prop where
  asymm : ∀ a b, lt a b = true → lt b a = false
  trans : ∀ a b c, lt a b = true → lt b c = true → lt a c = true
  eq_of : ∀ a b, lt a b = false → lt b a = false → a = b

theorem IsStrictBool.irrefl {α : Type} {lt : α → α → Bool}
    (h : IsStrictBool lt) (a : α) : lt a a = false := by
  by_cases ha : lt a a = true
  · exact h.asymm a a ha
  · simpa using ha

theorem IsStrictBool.le_trans {α : Type} {lt : α → α → Bool}
    (h : IsStrictBool lt) (a b c : α)
    (hba : lt b a = false) (hcb : lt c b = false) : lt c a = false := by
  by_cases hca : lt c a = true
  · by_cases hab : lt a b = true
    · by_cases hbc : lt b c = true
      · have := h.trans a b c hab hbc
        rw [h.asymm c a hca] at this
        exact absurd this (by simp)
      · have hbceq : b = c := h.eq_of b c (by simpa using hbc) hcb
        rw [← hbceq] at hca
        rw [hba] at hca
        exact absurd hca (by simp)
    · have habeq : a = b := h.eq_of a b (by simpa using hab) hba
      rw [← habeq] at hcb
      rw [hcb] at hca
      exact absurd hca (by simp)
  · simpa using hca

theorem bytes_lt_strict : IsStrictBool bytes_lt where
  asymm := bytes_lt_asymm
  trans := bytes_lt_trans
  eq_of := bytes_lt_eq_of_not_lt

theorem int_lt_strict : IsStrictBool int_lt := by
  refine ⟨?_, ?_, ?_⟩
  · intro a b h
    simp only [int_lt, decide_eq_true_eq] at h
    simp only [int_lt, decide_eq_false_iff_not]
    omega
  · intro a b c h h'
    simp only [int_lt, decide_eq_true_eq] at h h' ⊢
    omega
  · intro a b h h'
    simp only [int_lt, decide_eq_false_iff_not, not_lt] at h h'
    omega

theorem lex2_strict {α β : Type} {ltA : α → α → Bool} {ltB : β → β → Bool}
    (hA : IsStrictBool ltA) (hB : IsStrictBool ltB) :
    IsStrictBool (lex2 ltA ltB) := by
  refine ⟨?_, ?_, ?_⟩
  · rintro ⟨a1, a2⟩ ⟨b1, b2⟩ hab
    simp only [lex2] at hab ⊢
    by_cases h1 : ltA a1 b1 = true
    · rw [if_neg (by simp [hA.asymm _ _ h1]), if_pos h1]
    · rw [if_neg (by simpa using h1)] at hab
      by_cases h2 : ltA b1 a1 = true
      · rw [if_pos h2] at hab
        exact absurd hab (by simp)
      · rw [if_neg (by simpa using h2)] at hab
        rw [if_neg (by simpa using h2), if_neg (by simpa using h1)]
        exact hB.asymm _ _ hab
  · rintro ⟨a1, a2⟩ ⟨b1, b2⟩ ⟨c1, c2⟩ hab hbc
    simp only [lex2] at hab hbc ⊢
    by_cases h1 : ltA a1 b1 = true
    · by_cases h2 : ltA b1 c1 = true
      · rw [if_pos (hA.trans _ _ _ h1 h2)]
      · by_cases h3 : ltA c1 b1 = true
        · rw [if_neg (by simp [hA.asymm _ _ h3]), if_pos h3] at hbc
          exact absurd hbc (by simp)
        · obtain rfl := hA.eq_of b1 c1 (by simpa using h2) (by simpa using h3)
          rw [if_pos h1]
    · by_cases h2 : ltA b1 a1 = true
      · rw [if_neg (by simpa using h1), if_pos h2] at hab
        exact absurd hab (by simp)
      · obtain rfl := hA.eq_of a1 b1 (by simpa using h1) (by simpa using h2)
        rw [if_neg (by simpa using h1), if_neg (by simpa using h2)] at hab
        by_cases h3 : ltA a1 c1 = true
        · rw [if_pos h3]
        · by_cases h4 : ltA c1 a1 = true
          · rw [if_neg (by simpa using h3), if_pos h4] at hbc
            exact absurd hbc (by simp)
          · obtain rfl := hA.eq_of a1 c1 (by simpa using h3) (by simpa using h4)
            rw [if_neg (by simpa using h3), if_neg (by simpa using h4)] at hbc ⊢
            exact hB.trans _ _ _ hab hbc
  · rintro ⟨a1, a2⟩ ⟨b1, b2⟩ hab hba
    simp only [lex2] at hab hba
    by_cases h1 : ltA a1 b1 = true
    · rw [if_pos h1] at hab
      exact absurd hab (by simp)
    · by_cases h2 : ltA b1 a1 = true
      · rw [if_pos h2] at hba
        exact absurd hba (by simp)
      · obtain rfl := hA.eq_of a1 b1 (by simpa using h1) (by simpa using h2)
        rw [if_neg (by simpa using h1), if_neg (by simpa using h2)] at hab hba
        rw [hB.eq_of a2 b2 hab hba]

theorem msg_key_lt_strict : IsStrictBool msg_key_lt :=
  lex2_strict bytes_lt_strict (lex2_strict int_lt_strict bytes_lt_strict)

/-! ## Python stable sorting

`list.sort(key=f)` is the stable ascending sort by key, uniquely determined
by: result is a permutation, ascending by the key, and elements with equal
keys keep their original relative order.  It is modelled as the standard
stable insertion sort: a new element is inserted after every already-placed
element whose key is strictly smaller than (or tied with) its own.
`sorted(..., reverse=True)` is the stable descending sort, obtained by
flipping the comparison. -/

/-- Insert `x` into an (ascending) sorted list: skip over elements strictly
below `x`, landing before the first element not below `x` (ties stay in
original order, which makes the sort stable). -/
def py_ordered_insert {α : Type} (lt : α → α → Bool) (x : α) : List α → List α
  | [] => [x]
  | y :: ys => if lt y x then y :: py_ordered_insert lt x ys else x :: y :: ys

/-- Stable ascending insertion sort (Python `list.sort`). -/
def py_sort {α : Type} (lt : α → α → Bool) : List α → List α
  | [] => []
  | x :: xs => py_ordered_insert lt x (py_sort lt xs)

/-- Stable descending sort (Python `sorted(..., reverse=True)`). -/
def py_sort_desc {α : Type} (lt : α → α → Bool) (l : List α) : List α :=
  py_sort (fun a b => lt b a) l

theorem py_ordered_insert_perm {α : Type} (lt : α → α → Bool) (x : α)
    (l : List α) : List.Perm (py_ordered_insert lt x l) (x :: l) := by
  induction l with
  | nil => exact List.Perm.refl _
  | cons y ys ih =>
    simp only [py_ordered_insert]
    split
    · exact (ih.cons y).trans (List.Perm.swap x y ys)
    · exact List.Perm.refl _

theorem py_sort_perm {α : Type} (lt : α → α → Bool) (l : List α) :
    List.Perm (py_sort lt l) l := by
  induction l with
  | nil => exact List.Perm.refl _
  | cons x xs ih =>
    exact (py_ordered_insert_perm lt x (py_sort lt xs)).trans (ih.cons x)

theorem py_ordered_insert_pairwise {α : Type} {lt : α → α → Bool}
    (hasymm : ∀ a b, lt a b = true → lt b a = false)
    (hletrans : ∀ a b c, lt b a = false → lt c b = false → lt c a = false)
    (x : α) (l : List α)
    (hl : l.Pairwise (fun a b => lt b a = false)) :
    (py_ordered_insert lt x l).Pairwise (fun a b => lt b a = false) := by
  induction l with
  | nil => simp [py_ordered_insert]
  | cons y ys ih =>
    rcases List.pairwise_cons.mp hl with ⟨hy, hys⟩
    simp only [py_ordered_insert]
    by_cases hyx : lt y x = true
    · rw [if_pos hyx]
      refine List.pairwise_cons.mpr ⟨?_, ih hys⟩
      intro z hz
      rcases List.mem_cons.mp ((py_ordered_insert_perm lt x ys).mem_iff.mp hz) with
        rfl | hz'
      · exact hasymm y z hyx
      · exact hy z hz'
    · rw [if_neg hyx]
      refine List.pairwise_cons.mpr ⟨?_, hl⟩
      intro z hz
      rcases List.mem_cons.mp hz with rfl | hz'
      · simpa using hyx
      · exact hletrans x y z (by simpa using hyx) (hy z hz')

theorem py_sort_pairwise {α : Type} {lt : α → α → Bool}
    (hasymm : ∀ a b, lt a b = true → lt b a = false)
    (hletrans : ∀ a b c, lt b a = false → lt c b = false → lt c a = false)
    (l : List α) :
    (py_sort lt l).Pairwise (fun a b => lt b a = false) := by
  induction l with
  | nil => simp [py_sort]
  | cons x xs ih =>
    exact py_ordered_insert_pairwise hasymm hletrans x (py_sort lt xs) ih

theorem py_sort_desc_pairwise {α : Type} {lt : α → α → Bool}
    (hasymm : ∀ a b, lt a b = true → lt b a = false)
    (hletrans : ∀ a b c, lt b a = false → lt c b = false → lt c a = false)
    (l : List α) :
    (py_sort_desc lt l).Pairwise (fun a b => lt a b = false) :=
  py_sort_pairwise (fun a b h => hasymm b a h)
    (fun a b c h h' => hletrans c b a h' h) l

theorem py_sort_desc_perm {α : Type} (lt : α → α → Bool) (l : List α) :
    List.Perm (py_sort_desc lt l) l :=
  py_sort_perm _ l

/-- In an ascending-sorted list, an element whose key is strictly below every
other member's key is the head. -/
theorem py_sort_head_of_strict_min {α : Type} {lt : α → α → Bool}
    (hasymm : ∀ a b, lt a b = true → lt b a = false)
    (hletrans : ∀ a b c, lt b a = false → lt c b = false → lt c a = false)
    (l : List α) (m : α) (hm : m ∈ l)
    (hmin : ∀ z ∈ l, z ≠ m → lt m z = true) :
    ∃ tl, py_sort lt l = m :: tl := by
  rcases hsort : py_sort lt l with _ | ⟨h, tl⟩
  · have hmem : m ∈ py_sort lt l := (py_sort_perm lt l).mem_iff.mpr hm
    rw [hsort] at hmem
    simp at hmem
  · refine ⟨tl, ?_⟩
    by_cases hhm : h = m
    · rw [hhm]
    · have hhl : h ∈ l := (py_sort_perm lt l).mem_iff.mp
        (hsort ▸ List.mem_cons_self h tl)
      have hmh : lt m h = true := hmin h hhl hhm
      have hmtl : m ∈ h :: tl := hsort ▸ (py_sort_perm lt l).mem_iff.mpr hm
      rcases List.mem_cons.mp hmtl with heq | hmtl'
      · exact absurd heq.symm hhm
      · have hpw := py_sort_pairwise hasymm hletrans l
        rw [hsort] at hpw
        have hcontra := (List.pairwise_cons.mp hpw).1 m hmtl'
        rw [hmh] at hcontra
        exact absurd hcontra (by simp)

/-! ## Conversation Threader
(`pysrc/helpers/outlook/indexing.py`, `index_folder_organize_into_conversations`)

The pure computational core (steps 2-4 of the source: group by
`conversationId`, sort each group by `inner_key` ascending and reverse, sort
the groups by `group_sort_key` descending).  A metadata record is modelled
with the four fields the threader reads; `Option` fields model keys that may
be absent (or JSON `null`, which `dict.get` with a default also maps to the
falsy path for `conversationId`/`conversationIndex`). -/

structure MessageMeta where
  id : Option String
  conversationId : Option String
  conversationIndex : Option String
  receivedEpoch : Option Int
deriving DecidableEq, Repr

/-- Code points of a Python string, as compared by `str < str`. -/
def str_bytes (s : String) : List Nat := s.toList.map Char.toNat

/-- `inner_key(m) = (idx_bytes, m.get("receivedEpoch", 0), m.get("id", ""))`;
`none` models an uncaught `binascii.Error` from the decode. -/
def inner_key (m : MessageMeta) : Option MsgKey :=
  (_decode_conversation_index (m.conversationIndex.getD "")).map
    (fun bs => (bs, (m.receivedEpoch.getD 0, str_bytes (m.id.getD ""))))

/-- `conversation_groups.setdefault(cid, []).append(meta)`: append to the
existing entry, or add a new entry at the end (dict insertion order). -/
def assoc_append (m : List (String × List MessageMeta)) (k : String)
    (x : MessageMeta) : List (String × List MessageMeta) :=
  match m with
  | [] => [(k, [x])]
  | (k', xs) :: rest =>
    if k' = k then (k', xs ++ [x]) :: rest
    else (k', xs) :: assoc_append rest k x

/-- Step 2 of the threader: group by `conversationId`, skipping records whose
`conversationId` is missing or falsy. -/
def group_by_conversation_id (acc : List (String × List MessageMeta)) :
    List MessageMeta → List (String × List MessageMeta)
  | [] => acc
  | m :: rest =>
    match m.conversationId with
    | none => group_by_conversation_id acc rest
    | some cid =>
      if cid = "" then group_by_conversation_id acc rest
      else group_by_conversation_id (assoc_append acc cid m) rest

/-- `list.sort(key=inner_key)` computes every key up front
(decorate-sort-undecorate); a single undecodable token fails the whole call. -/
def decorate_keys : List MessageMeta → Option (List (MsgKey × MessageMeta))
  | [] => some []
  | m :: rest =>
    match inner_key m, decorate_keys rest with
    | some k, some ks => some ((k, m) :: ks)
    | _, _ => none

/-- Step 3 of the threader for one group: `metas.sort(key=inner_key)` then
`metas.reverse()` (latest-first). -/
def sort_group_metas (metas : List MessageMeta) : Option (List MessageMeta) :=
  (decorate_keys metas).map
    (fun keyed =>
      ((py_sort (fun a b => msg_key_lt a.1 b.1) keyed).reverse).map Prod.snd)

/-- Apply the in-place per-group sort to every `(cid, metas)` entry. -/
def sort_all_groups :
    List (String × List MessageMeta) → Option (List (String × List MessageMeta))
  | [] => some []
  | (cid, ms) :: rest =>
    match sort_group_metas ms, sort_all_groups rest with
    | some ms', some rest' => some ((cid, ms') :: rest')
    | _, _ => none

/-- `group_sort_key`: the `receivedEpoch` (default 0) of the group's first
message, with `{}` (key 0) for an empty group. -/
def group_sort_key (g : String × List MessageMeta) : Int :=
  match g.2.head? with
  | some first => first.receivedEpoch.getD 0
  | none => 0

/-- The ordering core of `index_folder_organize_into_conversations`: group the
metadata records, order each group latest-first, then order the groups by
`group_sort_key` descending (`sorted(..., reverse=True)`). -/
def index_folder_organize_conversations (metas : List MessageMeta) :
    Option (List (String × List MessageMeta)) :=
  (sort_all_groups (group_by_conversation_id [] metas)).map
    (fun groups =>
      py_sort_desc (fun g g' => int_lt (group_sort_key g) (group_sort_key g'))
        groups)

theorem decorate_keys_map_snd (metas : List MessageMeta)
    (keyed : List (MsgKey × MessageMeta)) (h : decorate_keys metas = some keyed) :
    keyed.map Prod.snd = metas := by
  induction metas generalizing keyed with
  | nil =>
    simp only [decorate_keys] at h
    obtain rfl := Option.some_inj.mp h
    rfl
  | cons m rest ih =>
    simp only [decorate_keys] at h
    rcases hk : inner_key m with _ | k <;> rw [hk] at h
    · exact absurd h (by simp)
    · rcases hr : decorate_keys rest with _ | ks <;> rw [hr] at h
      · exact absurd h (by simp)
      · obtain rfl := Option.some_inj.mp h
        simp [ih ks hr]

theorem decorate_keys_key (metas : List MessageMeta)
    (keyed : List (MsgKey × MessageMeta)) (h : decorate_keys metas = some keyed) :
    ∀ p ∈ keyed, inner_key p.2 = some p.1 := by
  induction metas generalizing keyed with
  | nil =>
    simp only [decorate_keys] at h
    obtain rfl := Option.some_inj.mp h
    simp
  | cons m rest ih =>
    simp only [decorate_keys] at h
    rcases hk : inner_key m with _ | k <;> rw [hk] at h
    · exact absurd h (by simp)
    · rcases hr : decorate_keys rest with _ | ks <;> rw [hr] at h
      · exact absurd h (by simp)
      · obtain rfl := Option.some_inj.mp h
        intro p hp
        rcases List.mem_cons.mp hp with rfl | hp'
        · exact hk
        · exact ih ks hr p hp'

theorem decorate_keys_mem (metas : List MessageMeta)
    (keyed : List (MsgKey × MessageMeta)) (h : decorate_keys metas = some keyed)
    (m : MessageMeta) (hm : m ∈ metas) (k : MsgKey) (hk : inner_key m = some k) :
    (k, m) ∈ keyed := by
  induction metas generalizing keyed with
  | nil => simp at hm
  | cons m0 rest ih =>
    simp only [decorate_keys] at h
    rcases hk0 : inner_key m0 with _ | k0 <;> rw [hk0] at h
    · exact absurd h (by simp)
    · rcases hr : decorate_keys rest with _ | ks <;> rw [hr] at h
      · exact absurd h (by simp)
      · obtain rfl := Option.some_inj.mp h
        rcases List.mem_cons.mp hm with rfl | hm'
        · rw [hk0] at hk
          obtain rfl := Option.some_inj.mp hk
          exact List.mem_cons_self _ _
        · exact List.mem_cons_of_mem _ (ih ks hr hm')

/-- The per-group output of the threader: a permutation of the group, ordered
descending (latest-first) by the `(idx_bytes, epoch, id)` key. -/
theorem sort_group_metas_spec (ms ms' : List MessageMeta)
    (h : sort_group_metas ms = some ms') :
    List.Perm ms' ms ∧
      ms'.Pairwise (fun a b => ∀ ka kb, inner_key a = some ka →
        inner_key b = some kb → msg_key_lt ka kb = false) := by
  simp only [sort_group_metas] at h
  rcases hd : decorate_keys ms with _ | keyed <;> rw [hd] at h
  · exact absurd h (by simp)
  · simp only [Option.map_some'] at h
    obtain rfl := Option.some_inj.mp h
    set sorted := py_sort (fun a b : MsgKey × MessageMeta => msg_key_lt a.1 b.1) keyed
      with hsorted
    constructor
    · have h1 : List.Perm sorted.reverse keyed :=
        (List.reverse_perm sorted).trans (py_sort_perm _ keyed)
      have h2 := h1.map Prod.snd
      rwa [decorate_keys_map_snd ms keyed hd] at h2
    · have hpw : sorted.Pairwise
          (fun a b : MsgKey × MessageMeta => msg_key_lt b.1 a.1 = false) :=
        py_sort_pairwise
          (fun a b hab => msg_key_lt_strict.asymm a.1 b.1 hab)
          (fun a b c hab hbc => msg_key_lt_strict.le_trans a.1 b.1 c.1 hab hbc)
          keyed
      have hrev : sorted.reverse.Pairwise
          (fun a b : MsgKey × MessageMeta => msg_key_lt a.1 b.1 = false) :=
        List.pairwise_reverse.mpr hpw
      rw [List.pairwise_map]
      refine hrev.imp_of_mem ?_
      intro p q hp hq hpq
      intro ka kb hka hkb
      have hpkey := decorate_keys_key ms keyed hd p
        (((List.reverse_perm sorted).trans (py_sort_perm _ keyed)).mem_iff.mp hp)
      have hqkey := decorate_keys_key ms keyed hd q
        (((List.reverse_perm sorted).trans (py_sort_perm _ keyed)).mem_iff.mp hq)
      rw [hpkey] at hka
      rw [hqkey] at hkb
      obtain rfl := Option.some_inj.mp hka
      obtain rfl := Option.some_inj.mp hkb
      exact hpq

theorem sort_all_groups_mem (gs gs' : List (String × List MessageMeta))
    (h : sort_all_groups gs = some gs') :
    ∀ g' ∈ gs', ∃ ms, (g'.1, ms) ∈ gs ∧ sort_group_metas ms = some g'.2 := by
  induction gs generalizing gs' with
  | nil =>
    simp only [sort_all_groups] at h
    obtain rfl := Option.some_inj.mp h
    simp
  | cons g rest ih =>
    obtain ⟨cid, ms⟩ := g
    simp only [sort_all_groups] at h
    rcases hs : sort_group_metas ms with _ | ms' <;> rw [hs] at h
    · exact absurd h (by simp)
    · rcases hr : sort_all_groups rest with _ | rest' <;> rw [hr] at h
      · exact absurd h (by simp)
      · obtain rfl := Option.some_inj.mp h
        intro g' hg'
        rcases List.mem_cons.mp hg' with rfl | hg''
        · exact ⟨ms, List.mem_cons_self _ _, hs⟩
        · obtain ⟨ms0, hmem, hsort⟩ := ih rest' hr g' hg''
          exact ⟨ms0, List.mem_cons_of_mem _ hmem, hsort⟩

theorem assoc_append_members (acc : List (String × List MessageMeta))
    (k : String) (x : MessageMeta) :
    ∀ g ∈ assoc_append acc k x, ∀ m ∈ g.2,
      (∃ g0 ∈ acc, m ∈ g0.2) ∨ m = x := by
  induction acc with
  | nil =>
    intro g hg m hm
    simp only [assoc_append, List.mem_singleton] at hg
    subst hg
    simp only [List.mem_singleton] at hm
    exact Or.inr hm
  | cons p rest ih =>
    obtain ⟨k', xs⟩ := p
    intro g hg m hm
    simp only [assoc_append] at hg
    by_cases hk : k' = k
    · rw [if_pos hk] at hg
      rcases List.mem_cons.mp hg with rfl | hg'
      · rcases List.mem_append.mp hm with hin | hin
        · exact Or.inl ⟨(k', xs), List.mem_cons_self _ _, hin⟩
        · exact Or.inr (List.mem_singleton.mp hin)
      · exact Or.inl ⟨g, List.mem_cons_of_mem _ hg', hm⟩
    · rw [if_neg hk] at hg
      rcases List.mem_cons.mp hg with rfl | hg'
      · exact Or.inl ⟨(k', xs), List.mem_cons_self _ _, hm⟩
      · rcases ih g hg' m hm with ⟨g0, hg0, hm0⟩ | heq
        · exact Or.inl ⟨g0, List.mem_cons_of_mem _ hg0, hm0⟩
        · exact Or.inr heq

theorem group_by_conversation_id_members
    (metas : List MessageMeta) :
    ∀ (acc : List (String × List MessageMeta)),
    ∀ g ∈ group_by_conversation_id acc metas, ∀ m ∈ g.2,
      (∃ g0 ∈ acc, m ∈ g0.2) ∨ m ∈ metas := by
  induction metas with
  | nil =>
    intro acc g hg m hm
    exact Or.inl ⟨g, hg, hm⟩
  | cons m0 rest ih =>
    intro acc g hg m hm
    simp only [group_by_conversation_id] at hg
    rcases hc : m0.conversationId with _ | cid <;> rw [hc] at hg
    · rcases ih acc g hg m hm with h | h
      · exact Or.inl h
      · exact Or.inr (List.mem_cons_of_mem _ h)
    · have hg2 : g ∈ (if cid = "" then group_by_conversation_id acc rest
          else group_by_conversation_id (assoc_append acc cid m0) rest) := hg
      by_cases hcid : cid = ""
      · rw [if_pos hcid] at hg2
        rcases ih acc g hg2 m hm with h | h
        · exact Or.inl h
        · exact Or.inr (List.mem_cons_of_mem _ h)
      · rw [if_neg hcid] at hg2
        rcases ih (assoc_append acc cid m0) g hg2 m hm with ⟨g0, hg0, hm0⟩ | h
        · rcases assoc_append_members acc cid m0 g0 hg0 m hm0 with h' | rfl
          · exact Or.inl h'
          · exact Or.inr (List.mem_cons_self _ _)
        · exact Or.inr (List.mem_cons_of_mem _ h)

/-- The two messages of the spec's concrete threading example: A with index
bytes `01 02` (base64 `AQI=`) and epoch 1000, B with index bytes `01 03`
(base64 `AQM=`) and epoch 2000, sharing `conversationId = "CONV1"`. -/
def example_message_A : MessageMeta :=
  ⟨some "A", some "CONV1", some "AQI=", some 1000⟩

def example_message_B : MessageMeta :=
  ⟨some "B", some "CONV1", some "AQM=", some 2000⟩

/-- **C2.** Within each conversation group the threader emits a permutation of
the group ordered descending (latest-first) by the tuple (ordering-token raw
bytes bytewise-lexicographic, then received-epoch, then id), i.e. it sorts
ascending by that tuple and reverses; in particular, for messages A (token
bytes `01 02`, epoch 1000) and B (token bytes `01 03`, epoch 2000) sharing
`conversationId = "CONV1"`, the emitted order is [B, A]. -/
theorem threader_sorts_groups_latest_first :
    (∀ metas out, index_folder_organize_conversations metas = some out →
      ∀ g ∈ out, ∃ ms, (g.1, ms) ∈ group_by_conversation_id [] metas ∧
        List.Perm g.2 ms ∧
        g.2.Pairwise (fun a b => ∀ ka kb, inner_key a = some ka →
          inner_key b = some kb → msg_key_lt ka kb = false)) ∧
    index_folder_organize_conversations [example_message_A, example_message_B] =
      some [("CONV1", [example_message_B, example_message_A])] ∧
    _decode_conversation_index "AQI=" = some [1, 2] ∧
    _decode_conversation_index "AQM=" = some [1, 3] := by
  refine ⟨?_, by decide, by decide, by decide⟩
  intro metas out h g hg
  simp only [index_folder_organize_conversations] at h
  rcases hsg : sort_all_groups (group_by_conversation_id [] metas) with _ | groups'
    <;> rw [hsg] at h
  · exact absurd h (by simp)
  · simp only [Option.map_some'] at h
    obtain rfl := Option.some_inj.mp h
    have hg' : g ∈ groups' := (py_sort_desc_perm _ groups').mem_iff.mp hg
    obtain ⟨ms, hmem, hsort⟩ := sort_all_groups_mem _ _ hsg g hg'
    obtain ⟨hperm, hpw⟩ := sort_group_metas_spec ms g.2 hsort
    exact ⟨ms, hmem, hperm, hpw⟩

/-- Closed witness for C2 at the concrete example input. -/
theorem threader_sorts_groups_latest_first_witness :
    List.Perm [example_message_B, example_message_A]
      [example_message_A, example_message_B] := by
  obtain ⟨ms, hmem, hperm, _⟩ := threader_sorts_groups_latest_first.1
    [example_message_A, example_message_B]
    [("CONV1", [example_message_B, example_message_A])] (by decide)
    ("CONV1", [example_message_B, example_message_A]) (List.mem_singleton.mpr rfl)
  have hgb : group_by_conversation_id []
      [example_message_A, example_message_B] =
      [("CONV1", [example_message_A, example_message_B])] := by decide
  rw [hgb] at hmem
  obtain ⟨_, hms⟩ := Prod.mk.inj (List.mem_singleton.mp hmem)
  rw [hms] at hperm
  exact hperm

/-- A conversation group whose first (latest) message has no `receivedEpoch`
(the threader then uses the default key 0; an empty group also gets key 0). -/
def head_epoch_missing (g : String × List MessageMeta) : Prop :=
  match g.2.head? with
  | some first => first.receivedEpoch = none
  | none => True

theorem group_sort_key_of_missing (g : String × List MessageMeta)
    (h : head_epoch_missing g) : group_sort_key g = 0 := by
  simp only [head_epoch_missing] at h
  simp only [group_sort_key]
  rcases hh : g.2.head? with _ | first
  · rfl
  · rw [hh] at h
    simp only [h, Option.getD_none]

/-- **C9.** The threader orders conversation groups descending by the
received-epoch of each group's first (latest, after the within-group
reversal) message; and — whenever every epoch present in the metadata is
positive, which holds for the millisecond epochs the remote delivers — a
group whose latest message has no received-epoch is never followed by a group
whose latest message has one, i.e. the epoch-less groups sort last. -/
theorem threader_orders_groups_desc (metas : List MessageMeta)
    (out : List (String × List MessageMeta))
    (h : index_folder_organize_conversations metas = some out) :
    out.Pairwise (fun g g' =>
      int_lt (group_sort_key g) (group_sort_key g') = false) ∧
    ((∀ m ∈ metas, ∀ e : Int, m.receivedEpoch = some e → 0 < e) →
      out.Pairwise (fun g g' => head_epoch_missing g → head_epoch_missing g')) := by
  simp only [index_folder_organize_conversations] at h
  rcases hsg : sort_all_groups (group_by_conversation_id [] metas) with _ | groups'
    <;> rw [hsg] at h
  · exact absurd h (by simp)
  · simp only [Option.map_some'] at h
    obtain rfl := Option.some_inj.mp h
    have hdesc : (py_sort_desc
        (fun g g' => int_lt (group_sort_key g) (group_sort_key g')) groups').Pairwise
        (fun g g' => int_lt (group_sort_key g) (group_sort_key g') = false) :=
      py_sort_desc_pairwise
        (fun a b hab => int_lt_strict.asymm (group_sort_key a) (group_sort_key b) hab)
        (fun a b c hab hbc =>
          int_lt_strict.le_trans (group_sort_key a) (group_sort_key b)
            (group_sort_key c) hab hbc)
        groups'
    refine ⟨hdesc, ?_⟩
    intro hpos
    refine hdesc.imp_of_mem ?_
    intro g g' hgmem hg'mem hrel hmiss
    -- key of g is 0; pairwise gives key g' ≤ 0; a present head epoch would be
    -- positive, so the head epoch of g' must be missing as well
    by_contra hnot
    simp only [head_epoch_missing] at hnot
    rcases hh' : g'.2.head? with _ | first'
    · rw [hh'] at hnot
      exact hnot trivial
    · rw [hh'] at hnot
      rcases he' : first'.receivedEpoch with _ | e'
      · exact hnot he'
      · -- `first'` is a metadata record of the input list
        have hfirst_mem : first' ∈ g'.2 :=
          List.mem_of_mem_head? (Option.mem_def.mpr hh')
        have hg'g : g' ∈ groups' := (py_sort_desc_perm _ groups').mem_iff.mp hg'mem
        obtain ⟨ms, hmem, hsort⟩ := sort_all_groups_mem _ _ hsg g' hg'g
        obtain ⟨hperm, _⟩ := sort_group_metas_spec ms g'.2 hsort
        have hms : first' ∈ ms := hperm.mem_iff.mp hfirst_mem
        have hmetas : first' ∈ metas := by
          rcases group_by_conversation_id_members metas [] (g'.1, ms) hmem
              first' hms with ⟨g0, hg0, _⟩ | h
          · simp at hg0
          · exact h
        have hpos' : (0 : Int) < e' := hpos first' hmetas e' he'
        have hkey' : group_sort_key g' = e' := by
          simp only [group_sort_key, hh', he', Option.getD_some]
        have hkey : group_sort_key g = 0 := group_sort_key_of_missing g hmiss
        rw [hkey, hkey'] at hrel
        simp only [int_lt, decide_eq_false_iff_not, not_lt] at hrel
        omega

/-- Closed witness for C9: at the concrete two-message example both pairwise
orderings hold for the emitted single group. -/
theorem threader_orders_groups_desc_witness :
    ([("CONV1", [example_message_B, example_message_A])].Pairwise
      (fun g g' => head_epoch_missing g → head_epoch_missing g')) := by
  refine (threader_orders_groups_desc [example_message_A, example_message_B]
    [("CONV1", [example_message_B, example_message_A])] (by decide)).2 ?_
  intro m hm e he
  rcases List.mem_cons.mp hm with rfl | hm'
  · have : (some 1000 : Option Int) = some e := he
    obtain rfl := Option.some_inj.mp this
    omega
  · rcases List.mem_cons.mp hm' with rfl | hm''
    · have : (some 2000 : Option Int) = some e := he
      obtain rfl := Option.some_inj.mp this
      omega
    · simp at hm''

/-- **C10.** A missing or empty `conversationIndex` decodes to the empty byte
string rather than raising; the empty byte string is lexicographically least;
and consequently, in any conversation group in which every other message has
a nonempty ordering token, the token-less message is emitted in the last
(oldest) position of the latest-first sequence. -/
theorem decode_empty_token_sorts_last :
    _decode_conversation_index "" = some [] ∧
    (∀ bs : List Nat, bytes_lt bs [] = false) ∧
    (∀ (ms ms' : List MessageMeta) (m : MessageMeta),
      sort_group_metas ms = some ms' → m ∈ ms →
      _decode_conversation_index (m.conversationIndex.getD "") = some [] →
      (∀ m' ∈ ms, m' ≠ m → ∃ b bs,
        _decode_conversation_index (m'.conversationIndex.getD "") = some (b :: bs)) →
      ms'.getLast? = some m) := by
  refine ⟨by decide, ?_, ?_⟩
  · intro bs
    cases bs <;> rfl
  · intro ms ms' m hsort hm hdec hothers
    simp only [sort_group_metas] at hsort
    rcases hd : decorate_keys ms with _ | keyed <;> rw [hd] at hsort
    · exact absurd hsort (by simp)
    · simp only [Option.map_some'] at hsort
      obtain rfl := Option.some_inj.mp hsort
      -- the key of the token-less message
      have hkm : inner_key m =
          some ([], (m.receivedEpoch.getD 0, str_bytes (m.id.getD ""))) := by
        simp only [inner_key, hdec, Option.map_some']
      set km : MsgKey := ([], (m.receivedEpoch.getD 0, str_bytes (m.id.getD "")))
        with hkmdef
      have hkmem : (km, m) ∈ keyed := decorate_keys_mem ms keyed hd m hm km hkm
      -- it is the strict minimum of the decorated list
      have hmin : ∀ z ∈ keyed, z ≠ (km, m) →
          msg_key_lt ((km, m) : MsgKey × MessageMeta).1 z.1 = true := by
        intro z hz hne
        have hzsnd : z.2 ∈ ms := by
          have := decorate_keys_map_snd ms keyed hd
          rw [← this]
          exact List.mem_map.mpr ⟨z, hz, rfl⟩
        have hzkey := decorate_keys_key ms keyed hd z hz
        by_cases hzm : z.2 = m
        · exfalso
          rw [hzm, hkm] at hzkey
          obtain hz1 := Option.some_inj.mp hzkey
          apply hne
          have : z = (z.1, z.2) := rfl
          rw [this, hzm, ← hz1]
        · obtain ⟨b, bs, hbs⟩ := hothers z.2 hzsnd hzm
          have hzk : z.1 = (b :: bs,
              (z.2.receivedEpoch.getD 0, str_bytes (z.2.id.getD ""))) := by
            have : inner_key z.2 = some (b :: bs,
                (z.2.receivedEpoch.getD 0, str_bytes (z.2.id.getD ""))) := by
              simp only [inner_key, hbs, Option.map_some']
            rw [this] at hzkey
            exact (Option.some_inj.mp hzkey).symm
          rw [hzk]
          simp only [msg_key_lt, lex2, hkmdef]
          rw [if_pos (by rfl : bytes_lt [] (b :: bs) = true)]
      obtain ⟨tl, htl⟩ := py_sort_head_of_strict_min
        (fun a b hab => msg_key_lt_strict.asymm a.1 b.1 hab)
        (fun a b c hab hbc => msg_key_lt_strict.le_trans a.1 b.1 c.1 hab hbc)
        keyed (km, m) hkmem hmin
      rw [htl, List.reverse_cons, List.map_append]
      simp

/-- A message with no `conversationIndex` at all. -/
def example_message_no_token : MessageMeta :=
  ⟨some "C", some "CONV1", none, some 3000⟩

/-- Closed witness for C10: grouped with B (token bytes `01 03`), the
token-less message C is emitted last. -/
theorem decode_empty_token_sorts_last_witness :
    ([example_message_B, example_message_no_token] : List MessageMeta).getLast? =
      some example_message_no_token :=
  decode_empty_token_sorts_last.2.2
    [example_message_no_token, example_message_B]
    [example_message_B, example_message_no_token]
    example_message_no_token
    (by decide) (by decide) (by decide)
    (by
      intro m' hm' hne
      rcases List.mem_cons.mp hm' with rfl | hm''
      · exact absurd rfl hne
      · rcases List.mem_cons.mp hm'' with rfl | habs
        · exact ⟨1, [3], by decide⟩
        · simp at habs)

/-! ## JSON values, uncaught Python errors, and the checkpoint filesystem

The indexing helpers do dictionary lookups on parsed JSON and compare the
results; a missing key raises `KeyError`, using a non-dict like a dict or
comparing an `int` with a non-number raises `TypeError` — both abort the whole
run.  The checkpoint files are modelled as an association list from paths to
the JSON value stored in the file.  A `call_route` response is `none` when the
helper reported failure, otherwise it carries the parsed `.data`. -/

inductive JValue where
  | jnull
  | jbool (b : Bool)
  | jint (n : Int)
  | jfloat (q : Rat)
  | jstr (s : String)
  | jarr (items : List JValue)
  | jobj (fields : List (String × JValue))
deriving Repr

inductive PyErr where
  | keyError (k : String)
  | typeError
deriving Repr, DecidableEq

/-- The filesystem of checkpoint files: path to stored JSON document. -/
abbrev FS : Type := List (String × JValue)

/-- `data[k]`: `KeyError` on a dict without the key, `TypeError` when
subscripting a non-dict with a string key. -/
def py_get_item (v : JValue) (k : String) : Except PyErr JValue :=
  match v with
  | .jobj fields =>
    match assoc_get fields k with
    | some x => .ok x
    | none => .error (.keyError k)
  | _ => .error .typeError

/-- `isinstance(v, dict)`. -/
def py_is_dict (v : JValue) : Bool :=
  match v with
  | .jobj _ => true
  | _ => false

/-- `isinstance(v, list)`. -/
def py_is_list (v : JValue) : Bool :=
  match v with
  | .jarr _ => true
  | _ => false

/-- `isinstance(v, int)`: Python `bool` is a subclass of `int`, but a `float`
is not an `int` instance. -/
def py_is_int (v : JValue) : Bool :=
  match v with
  | .jint _ => true
  | .jbool _ => true
  | _ => false

/-- Use a JSON value as a number in arithmetic/comparisons: `True`/`False`
coerce to 1/0, floats take part as they are (modelled as exact rationals —
every JSON float is a dyadic rational), anything non-numeric raises
`TypeError`. -/
def py_as_num (v : JValue) : Except PyErr Rat :=
  match v with
  | .jint n => .ok (mkRat n 1)
  | .jbool b => .ok (mkRat (if b then 1 else 0) 1)
  | .jfloat q => .ok q
  | _ => .error .typeError

/-- Truthiness of an optional JSON value (`None`, `""`, `0`, `[]`, `{}` and
`False` are falsy), as used for `next_link`. -/
def py_truthy (v : Option JValue) : Bool :=
  match v with
  | none => false
  | some .jnull => false
  | some (.jbool b) => b
  | some (.jint n) => n != 0
  | some (.jfloat q) => q != 0
  | some (.jstr s) => s ≠ ""
  | some (.jarr items) => ¬ items.isEmpty
  | some (.jobj fields) => ¬ fields.isEmpty

/-- Scalar equality as used by Python `set` membership here (ids are strings;
cross-type numeric/bool equality such as `True == 1` is not modelled since
unhashable elements are rejected first and the callers only dedup strings). -/
def py_scalar_eq (a b : JValue) : Bool :=
  match a, b with
  | .jnull, .jnull => true
  | .jbool x, .jbool y => x == y
  | .jint x, .jint y => x == y
  | .jfloat x, .jfloat y => x == y
  | .jstr x, .jstr y => x == y
  | _, _ => false

/-- `hash(v)` succeeds only on scalars. -/
def py_hashable (v : JValue) : Bool :=
  match v with
  | .jarr _ => false
  | .jobj _ => false
  | _ => true

/-- Build `set(xs)` as the list of first occurrences. -/
def py_set_add_all : List JValue → List JValue → List JValue
  | [], acc => acc
  | v :: rest, acc =>
    py_set_add_all rest
      (if acc.any (fun w => py_scalar_eq w v) then acc else acc ++ [v])

/-- `len(set(xs))`; `TypeError` on unhashable elements. -/
def py_set_size (xs : List JValue) : Except PyErr Nat :=
  if xs.all py_hashable then .ok (py_set_add_all xs []).length
  else .error .typeError

/-- A successful `call_route` result (`.data` is the parsed body). -/
structure RouteResponse where
  data : JValue

/-- The folder-node dictionaries handed to the indexing helpers; only the
fields those helpers read are modelled. -/
structure FolderNode where
  id : Option String
  shortcode : Option String
  name : String

/-- `_resolve_index_file(base_dir, folder_id, folder_shortcode)`: prefer the
shortcode-named file; if only the legacy id-named file exists, copy its
contents over.  Returns the path and the (possibly migrated) filesystem. -/
def _resolve_index_file (fs : FS) (base_dir folder_id folder_shortcode : String) :
    String × FS :=
  let new_path := base_dir ++ "/" ++ folder_shortcode ++ ".json"
  let old_path := base_dir ++ "/" ++ folder_id ++ ".json"
  match assoc_get fs new_path, assoc_get fs old_path with
  | none, some data => (new_path, assoc_set fs new_path data)
  | _, _ => (new_path, fs)

theorem py_set_any_jstr (seen : List String) (v : String) :
    ((seen.map JValue.jstr).any (fun w => py_scalar_eq w (.jstr v))) =
      decide (v ∈ seen) := by
  induction seen with
  | nil => simp
  | cons x rest ih =>
    simp only [List.map_cons, List.any_cons]
    rw [show py_scalar_eq (.jstr x) (.jstr v) = (x == v) from rfl, ih]
    simp only [List.mem_cons]
    by_cases hxv : x = v
    · subst hxv
      simp
    · simp [hxv, Ne.symm hxv]

theorem py_set_add_all_of_nodup (ids : List String) :
    ∀ seen : List String, ids.Nodup → (∀ v ∈ ids, v ∉ seen) →
    (py_set_add_all (ids.map .jstr) (seen.map .jstr)).length =
      seen.length + ids.length := by
  induction ids with
  | nil => intro seen _ _; simp [py_set_add_all]
  | cons v rest ih =>
    intro seen hnd hdisj
    simp only [List.map_cons, py_set_add_all, py_set_any_jstr]
    rw [if_neg (by simpa using hdisj v (List.mem_cons_self _ _))]
    rw [show (seen.map JValue.jstr) ++ [JValue.jstr v] = (seen ++ [v]).map .jstr by
      simp]
    rw [ih (seen ++ [v]) (List.nodup_cons.mp hnd).2
      (by
        intro w hw
        simp only [List.mem_append, List.mem_singleton]
        push_neg
        exact ⟨fun hs => hdisj w (List.mem_cons_of_mem _ hw) hs,
          fun hwv => (List.nodup_cons.mp hnd).1 (hwv ▸ hw)⟩)]
    simp only [List.length_append, List.length_singleton, List.length_cons, List.length_nil]
    omega

theorem py_set_add_all_le (ids : List String) :
    ∀ seen : List String,
    (py_set_add_all (ids.map .jstr) (seen.map .jstr)).length ≤
      seen.length + ids.length := by
  induction ids with
  | nil => intro seen; simp [py_set_add_all]
  | cons v rest ih =>
    intro seen
    simp only [List.map_cons, py_set_add_all, py_set_any_jstr]
    by_cases hv : v ∈ seen
    · rw [if_pos (by simpa using hv)]
      have := ih seen
      simp only [List.length_cons]
      omega
    · rw [if_neg (by simpa using hv)]
      rw [show (seen.map JValue.jstr) ++ [JValue.jstr v] = (seen ++ [v]).map .jstr by
        simp]
      have := ih (seen ++ [v])
      simp only [List.length_append, List.length_singleton, List.length_cons, List.length_nil] at this ⊢
      omega

theorem py_set_add_all_lt_of_dup (ids : List String) :
    ∀ seen : List String, ¬ (ids.Nodup ∧ ∀ v ∈ ids, v ∉ seen) →
    (py_set_add_all (ids.map .jstr) (seen.map .jstr)).length <
      seen.length + ids.length := by
  induction ids with
  | nil =>
    intro seen h
    exact absurd ⟨List.nodup_nil, by simp⟩ h
  | cons v rest ih =>
    intro seen h
    simp only [List.map_cons, py_set_add_all, py_set_any_jstr]
    by_cases hv : v ∈ seen
    · rw [if_pos (by simpa using hv)]
      have := py_set_add_all_le rest seen
      simp only [List.length_cons]
      omega
    · rw [if_neg (by simpa using hv)]
      rw [show (seen.map JValue.jstr) ++ [JValue.jstr v] = (seen ++ [v]).map .jstr by
        simp]
      have hrest : ¬ (rest.Nodup ∧ ∀ w ∈ rest, w ∉ seen ++ [v]) := by
        intro ⟨hnd, hdisj⟩
        apply h
        constructor
        · refine List.nodup_cons.mpr ⟨?_, hnd⟩
          intro hvr
          exact (hdisj v hvr) (List.mem_append.mpr (Or.inr (List.mem_singleton.mpr rfl)))
        · intro w hw
          rcases List.mem_cons.mp hw with rfl | hw'
          · exact hv
          · exact fun hs => (hdisj w hw') (List.mem_append.mpr (Or.inl hs))
      have := ih (seen ++ [v]) hrest
      simp only [List.length_append, List.length_singleton, List.length_cons, List.length_nil] at this ⊢
      omega

/-- `len(xs) == len(set(xs))` for a list of strings decides `Nodup`. -/
theorem py_set_size_strs (ids : List String) :
    py_set_size (ids.map .jstr) =
      .ok (py_set_add_all (ids.map .jstr) []).length ∧
    ((py_set_add_all (ids.map .jstr) []).length = ids.length ↔ ids.Nodup) := by
  constructor
  · have hall : (ids.map JValue.jstr).all py_hashable = true := by
      rw [List.all_eq_true]
      intro v hv
      obtain ⟨s, _, rfl⟩ := List.mem_map.mp hv
      rfl
    simp only [py_set_size, if_pos hall]
  · constructor
    · intro hlen
      by_contra hnd
      have := py_set_add_all_lt_of_dup ids [] (by
        intro ⟨h1, _⟩
        exact hnd h1)
      rw [show ([] : List String).map JValue.jstr = [] from rfl] at this
      simp only [List.length_nil] at this
      omega
    · intro hnd
      have := py_set_add_all_of_nodup ids [] hnd (by simp)
      rw [show ([] : List String).map JValue.jstr = [] from rfl] at this
      simpa using this

theorem except_bind_ok {ε α β : Type} (a : α) (f : α → Except ε β) :
    (Except.ok a : Except ε α) >>= f = f a := rfl

theorem except_bind_err {ε α β : Type} (e : ε) (f : α → Except ε β) :
    (Except.error e : Except ε α) >>= f = .error e := rfl

/-! ## Folder & Message Indexer (`pysrc/helpers/outlook/indexing.py`)

Each helper takes the checkpoint filesystem and the sequence of remote
responses its `call_route` invocations will receive (`none` is a call that
the route helper reported as failed; an exhausted sequence is a call that
could not be made, treated like a failed one). -/

def INDEX_SANITY_CHECK_MAX_DISCREPANCY : Nat := 100

def INDEX_GET_METADATA_CHUNK_SIZE : Nat := 20

/-- `abs(indexedItemCount - totalItemCount) > INDEX_SANITY_CHECK_MAX_DISCREPANCY`
for an `int` left operand and a numeric right operand, written over the exact
rational's numerator/denominator by cross-multiplication (`den > 0`), which
keeps it computable; `py_num_discrepancy_exceeds_iff` states the equivalence
with the absolute-value inequality. -/
def py_num_discrepancy_exceeds (a : Int) (q : Rat) (n : Nat) : Bool :=
  (a * q.den - q.num).natAbs > n * q.den

/-- The body of `index_folder_sanity_check` from the metadata response on:
shape check (which only prints — the source lacks a `return False` there, so
execution falls through), count extraction, the file read (`read_items`, kept
as a computation to preserve the source's evaluation order), the discrepancy
check and the duplicate check. -/
def index_folder_sanity_check_core (data : JValue)
    (read_items : Except PyErr (List JValue)) : Except PyErr Bool := do
  let _invalid ←
    (if ¬ py_is_dict data then (pure true : Except PyErr Bool)
     else do
       let counts ← py_get_item data "counts"
       if ¬ py_is_dict counts then pure true
       else do
         let t ← py_get_item counts "totalItemCount"
         pure (¬ py_is_int t))
  let counts ← py_get_item data "counts"
  let totalItemCountJ ← py_get_item counts "totalItemCount"
  let message_ids ← read_items
  let indexedItemCount : Int := message_ids.length
  let totalItemCount ← py_as_num totalItemCountJ
  if py_num_discrepancy_exceeds indexedItemCount totalItemCount
      INDEX_SANITY_CHECK_MAX_DISCREPANCY then pure false
  else do
    let set_size ← py_set_size message_ids
    if message_ids.length ≠ set_size then pure false else pure true

/-- `index_folder_sanity_check(node)`: missing id/shortcode or a missing
checkpoint or a failed metadata request return `False`; otherwise the core
logic runs.  The checkpoint is always written as a JSON list; `len` of any
other stored shape is not modelled. -/
def index_folder_sanity_check (node : FolderNode) (fs : FS)
    (folder_metadata : Option RouteResponse) : Except PyErr (Bool × FS) :=
  let folder_id := node.id.getD ""
  let folder_shortcode := node.shortcode.getD ""
  if folder_id = "" ∨ folder_shortcode = "" then .ok (false, fs)
  else
    let resolved := _resolve_index_file fs ".dsed/index/top-level-messages"
      folder_id folder_shortcode
    let fs' := resolved.2
    if (assoc_get fs' resolved.1).isNone then .ok (false, fs')
    else
      match folder_metadata with
      | none => .ok (false, fs')
      | some resp =>
        (index_folder_sanity_check_core resp.data
          (match assoc_get fs' resolved.1 with
           | some (.jarr items) => .ok items
           | _ => .error .typeError)).map (fun b => (b, fs'))

/-- `py_num_discrepancy_exceeds` computes exactly
`n < abs(a - q)` over the rationals. -/
theorem py_num_discrepancy_exceeds_iff (a : Int) (q : Rat) (n : Nat) :
    py_num_discrepancy_exceeds a q n = true ↔ ((n : Rat) < |(a : Rat) - q|) := by
  unfold py_num_discrepancy_exceeds
  rw [decide_eq_true_eq]
  have hden : (0 : Rat) < (q.den : Rat) := by exact_mod_cast q.den_pos
  have hmul : q * (q.den : Rat) = (q.num : Rat) := by
    nth_rewrite 1 [← Rat.num_div_den q]
    rw [div_mul_cancel₀ _ (ne_of_gt hden)]
  have hrw : (a : Rat) - q = ((a * q.den - q.num : Int) : Rat) / (q.den : Rat) := by
    rw [eq_div_iff (ne_of_gt hden)]
    push_cast
    rw [sub_mul, hmul]
  rw [hrw, abs_div, abs_of_pos hden, lt_div_iff₀ hden, ← Int.cast_abs]
  rw [show ((n : Rat) * (q.den : Rat)) = (((n * q.den : Nat) : Int) : Rat) by
    push_cast; ring]
  rw [Int.cast_lt]
  rw [Int.abs_eq_natAbs]
  exact Int.ofNat_lt.symm

/-- On an integer count the cross-multiplied comparison is the plain integer
discrepancy test. -/
theorem py_num_discrepancy_exceeds_int (a t : Int) (n : Nat) :
    py_num_discrepancy_exceeds a (mkRat t 1) n =
      decide ((a - t).natAbs > n) := by
  unfold py_num_discrepancy_exceeds
  rw [Rat.mkRat_one t, Rat.intCast_num t, Rat.intCast_den t]
  simp only [Int.natCast_one, mul_one]

theorem index_folder_sanity_check_core_spec (ids : List String)
    (data counts : JValue) (total : Int)
    (hcounts : py_get_item data "counts" = .ok counts)
    (htotal : py_get_item counts "totalItemCount" = .ok (.jint total)) :
    index_folder_sanity_check_core data (.ok (ids.map .jstr)) =
      .ok (decide ((((ids.length : Int) - total).natAbs ≤
        INDEX_SANITY_CHECK_MAX_DISCREPANCY) ∧ ids.Nodup)) := by
  have hdata_dict : py_is_dict data = true := by
    rcases data with _ | _ | _ | _ | _ | _ | fields
      <;> simp only [py_get_item] at hcounts
      <;> first
        | rfl
        | exact absurd hcounts (by simp)
  have hcounts_dict : py_is_dict counts = true := by
    rcases counts with _ | _ | _ | _ | _ | _ | fields
      <;> simp only [py_get_item] at htotal
      <;> first
        | rfl
        | exact absurd htotal (by simp)
  obtain ⟨hsize, hiff⟩ := py_set_size_strs ids
  simp only [index_folder_sanity_check_core, hdata_dict, hcounts_dict, hcounts,
    htotal, not_true, Bool.false_eq_true, if_false, except_bind_ok, py_is_int,
    py_as_num, not_false_iff, hsize, List.length_map,
    py_num_discrepancy_exceeds_int]
  by_cases hdisc : ((((ids.length : Int)) - total).natAbs >
      INDEX_SANITY_CHECK_MAX_DISCREPANCY)
  · rw [if_pos (decide_eq_true hdisc)]
    have : ¬ ((((ids.length : Int)) - total).natAbs ≤
        INDEX_SANITY_CHECK_MAX_DISCREPANCY ∧ ids.Nodup) := by
      intro ⟨habs, _⟩
      omega
    simp [this]
    rfl
  · rw [if_neg (fun hc => hdisc (of_decide_eq_true hc))]
    by_cases hdup : ids.length = (py_set_add_all (ids.map .jstr) []).length
    · rw [if_neg (by simpa using hdup)]
      have hnodup : ids.Nodup := hiff.mp hdup.symm
      have : ((((ids.length : Int)) - total).natAbs ≤
          INDEX_SANITY_CHECK_MAX_DISCREPANCY ∧ ids.Nodup) := ⟨by omega, hnodup⟩
      simp [this]
      rfl
    · rw [if_pos (by simpa using hdup)]
      have hnodup : ¬ ids.Nodup := by
        rw [← hiff]
        intro hlen
        exact hdup hlen.symm
      have : ¬ ((((ids.length : Int)) - total).natAbs ≤
          INDEX_SANITY_CHECK_MAX_DISCREPANCY ∧ ids.Nodup) := by
        intro ⟨_, hnd⟩
        exact hnodup hnd
      simp [this]
      rfl

/-- **C5.** With the per-folder ID-list checkpoint present and a
folder-metadata response carrying an integer `totalItemCount`, the sanity
check succeeds exactly when the absolute difference between the indexed count
and the remote total is at most 100 and the persisted ID list has no
duplicate message id; the filesystem is left untouched. -/
theorem index_folder_sanity_check_spec (node : FolderNode) (fs : FS)
    (fid fsc : String) (ids : List String) (data counts : JValue) (total : Int)
    (hid : node.id = some fid) (hfid : fid ≠ "")
    (hsc : node.shortcode = some fsc) (hfsc : fsc ≠ "")
    (hfile : assoc_get fs
      (".dsed/index/top-level-messages" ++ "/" ++ fsc ++ ".json") =
      some (.jarr (ids.map .jstr)))
    (hcounts : py_get_item data "counts" = .ok counts)
    (htotal : py_get_item counts "totalItemCount" = .ok (.jint total)) :
    index_folder_sanity_check node fs (some ⟨data⟩) =
      .ok (decide ((((ids.length : Int) - total).natAbs ≤
        INDEX_SANITY_CHECK_MAX_DISCREPANCY) ∧ ids.Nodup), fs) := by
  have hres : _resolve_index_file fs ".dsed/index/top-level-messages" fid fsc =
      (".dsed/index/top-level-messages" ++ "/" ++ fsc ++ ".json", fs) := by
    simp only [_resolve_index_file, hfile]
  simp only [index_folder_sanity_check, hid, hsc, Option.getD_some]
  rw [if_neg (by simp [hfid, hfsc])]
  rw [hres]
  simp only [hfile, Option.isNone_some, Bool.false_eq_true, if_false]
  rw [index_folder_sanity_check_core_spec ids data counts total hcounts htotal]
  rfl

/-- Closed witness for C5: two distinct ids against a reported total of 52
(discrepancy 50) pass the check. -/
theorem index_folder_sanity_check_spec_witness :
    index_folder_sanity_check ⟨some "F1", some "__f1__", "F"⟩
      [(".dsed/index/top-level-messages" ++ "/" ++ "__f1__" ++ ".json",
        .jarr [.jstr "a", .jstr "b"])]
      (some ⟨.jobj [("counts", .jobj [("totalItemCount", .jint 52)])]⟩) =
      .ok (true,
        [(".dsed/index/top-level-messages" ++ "/" ++ "__f1__" ++ ".json",
          .jarr [.jstr "a", .jstr "b"])]) := by
  have h := index_folder_sanity_check_spec ⟨some "F1", some "__f1__", "F"⟩
    [(".dsed/index/top-level-messages" ++ "/" ++ "__f1__" ++ ".json",
      .jarr [.jstr "a", .jstr "b"])]
    "F1" "__f1__" ["a", "b"]
    (.jobj [("counts", .jobj [("totalItemCount", .jint 52)])])
    (.jobj [("totalItemCount", .jint 52)]) 52
    rfl (by decide) rfl (by decide) (by rfl) (by rfl) (by rfl)
  rw [h]
  rfl

theorem except_pure_bind {ε α β : Type} (a : α) (f : α → Except ε β) :
    (pure a : Except ε α) >>= f = f a := rfl

theorem except_map_ok {ε α β : Type} (a : α) (f : α → β) :
    (Except.ok a : Except ε α).map f = .ok (f a) := rfl

theorem except_map_err {ε α β : Type} (e : ε) (f : α → β) :
    (Except.error e : Except ε α).map f = .error e := rfl

/-- With id/shortcode present and the ID-list checkpoint already stored under
the shortcode name, the sanity check is its core logic over the response data
and the stored value, leaving the filesystem untouched. -/
theorem index_folder_sanity_check_run (node : FolderNode) (fs : FS)
    (fid fsc : String) (v data : JValue)
    (hid : node.id = some fid) (hfid : fid ≠ "")
    (hsc : node.shortcode = some fsc) (hfsc : fsc ≠ "")
    (hfile : assoc_get fs
      (".dsed/index/top-level-messages" ++ "/" ++ fsc ++ ".json") = some v) :
    index_folder_sanity_check node fs (some ⟨data⟩) =
      (index_folder_sanity_check_core data
        (match v with
         | .jarr items => .ok items
         | _ => .error .typeError)).map (fun b => (b, fs)) := by
  have hres : _resolve_index_file fs ".dsed/index/top-level-messages" fid fsc =
      (".dsed/index/top-level-messages" ++ "/" ++ fsc ++ ".json", fs) := by
    simp only [_resolve_index_file, hfile]
  simp only [index_folder_sanity_check, hid, hsc, Option.getD_some]
  rw [if_neg (by simp [hfid, hfsc])]
  rw [hres]
  simp only [hfile, Option.isNone_some, Bool.false_eq_true, if_false]
  cases v <;> rfl

/-- When `data["counts"]` raises (non-dict data, or a dict without the key),
the core aborts with that error: the shape check either short-circuits past
the subscript (non-dict data) and the raise happens at the assignment below
it, or raises inside the check itself. -/
theorem index_folder_sanity_check_core_counts_err (data : JValue)
    (read_items : Except PyErr (List JValue)) (e : PyErr)
    (h : py_get_item data "counts" = .error e) :
    index_folder_sanity_check_core data read_items = .error e := by
  unfold index_folder_sanity_check_core
  by_cases hd : py_is_dict data = true
  · rw [if_neg (not_not_intro hd), h, except_bind_err, except_bind_err]
  · rw [if_pos (by simpa using hd), except_pure_bind, h, except_bind_err]

/-- When `counts["totalItemCount"]` raises, the core aborts with that error,
from inside the shape check (dict `counts`) or at the assignment below it. -/
theorem index_folder_sanity_check_core_total_err (data counts : JValue)
    (read_items : Except PyErr (List JValue)) (e : PyErr)
    (hcounts : py_get_item data "counts" = .ok counts)
    (htotal : py_get_item counts "totalItemCount" = .error e) :
    index_folder_sanity_check_core data read_items = .error e := by
  have hdata_dict : py_is_dict data = true := by
    rcases data with _ | _ | _ | _ | _ | _ | fields
      <;> simp only [py_get_item] at hcounts
      <;> first
        | rfl
        | exact absurd hcounts (by simp)
  unfold index_folder_sanity_check_core
  rw [if_neg (not_not_intro hdata_dict), hcounts, except_bind_ok]
  by_cases hc : py_is_dict counts = true
  · rw [if_neg (not_not_intro hc), htotal, except_bind_err, except_bind_err]
  · rw [if_pos (by simpa using hc), except_pure_bind, except_bind_ok, htotal,
      except_bind_err]

/-- With a float `totalItemCount` the shape check's `isinstance(..., int)` is
`False`, but the check only prints: the core silently proceeds to the float
discrepancy comparison and the duplicate test. -/
theorem index_folder_sanity_check_core_float (ids : List String)
    (data counts : JValue) (q : Rat)
    (hcounts : py_get_item data "counts" = .ok counts)
    (htotal : py_get_item counts "totalItemCount" = .ok (.jfloat q)) :
    index_folder_sanity_check_core data (.ok (ids.map .jstr)) =
      .ok (decide ((py_num_discrepancy_exceeds (ids.length : Int) q
        INDEX_SANITY_CHECK_MAX_DISCREPANCY = false) ∧ ids.Nodup)) := by
  have hdata_dict : py_is_dict data = true := by
    rcases data with _ | _ | _ | _ | _ | _ | fields
      <;> simp only [py_get_item] at hcounts
      <;> first
        | rfl
        | exact absurd hcounts (by simp)
  have hcounts_dict : py_is_dict counts = true := by
    rcases counts with _ | _ | _ | _ | _ | _ | fields
      <;> simp only [py_get_item] at htotal
      <;> first
        | rfl
        | exact absurd htotal (by simp)
  obtain ⟨hsize, hiff⟩ := py_set_size_strs ids
  simp only [index_folder_sanity_check_core, hdata_dict, hcounts_dict, hcounts,
    htotal, not_true, Bool.false_eq_true, if_false, except_bind_ok, py_is_int,
    py_as_num, not_false_iff, hsize, List.length_map]
  by_cases hdisc : py_num_discrepancy_exceeds (ids.length : Int) q
      INDEX_SANITY_CHECK_MAX_DISCREPANCY = true
  · rw [if_pos hdisc]
    have : ¬ ((py_num_discrepancy_exceeds (ids.length : Int) q
        INDEX_SANITY_CHECK_MAX_DISCREPANCY = false) ∧ ids.Nodup) := by
      intro ⟨hfalse, _⟩
      rw [hdisc] at hfalse
      exact absurd hfalse (by simp)
    simp [this]
    rfl
  · rw [if_neg hdisc]
    have hfalse : py_num_discrepancy_exceeds (ids.length : Int) q
        INDEX_SANITY_CHECK_MAX_DISCREPANCY = false :=
      Bool.eq_false_iff.mpr hdisc
    by_cases hdup : ids.length = (py_set_add_all (ids.map .jstr) []).length
    · rw [if_neg (by simpa using hdup)]
      have hnodup : ids.Nodup := hiff.mp hdup.symm
      simp [hfalse, hnodup]
      rfl
    · rw [if_pos (by simpa using hdup)]
      have hnodup : ¬ ids.Nodup := by
        rw [← hiff]
        intro hlen
        exact hdup hlen.symm
      simp [hnodup]
      rfl

/-- Split the ID list into 20-element chunks
(`for i in range(0, len(message_ids), 20)`); the fuel argument (the list
length suffices, since every step drops at least one element) keeps the
recursion structural. -/
def chunk_list_go {α : Type} : Nat → List α → List (List α)
  | 0, _ => []
  | _, [] => []
  | fuel + 1, x :: xs =>
    ((x :: xs).take INDEX_GET_METADATA_CHUNK_SIZE) ::
      chunk_list_go fuel ((x :: xs).drop INDEX_GET_METADATA_CHUNK_SIZE)

def chunk_list {α : Type} (xs : List α) : List (List α) :=
  chunk_list_go xs.length xs

/-- Read the persisted ID list as strings.  (Non-string ids would make the
final `json.dumps` of the metadata map fail; the model surfaces the error at
read time instead.) -/
def as_str_list (v : JValue) : Except PyErr (List String) :=
  match v with
  | .jarr items => items.mapM (fun it =>
      match it with
      | .jstr s => (.ok s : Except PyErr String)
      | _ => .error .typeError)
  | _ => .error .typeError

/-- `for message_id, message_metadata in zip(chunk_ids, ...): all[id] = md`:
Python's `zip` silently stops at the shorter sequence. -/
def zip_update (acc : List (String × JValue)) :
    List String → List JValue → List (String × JValue)
  | [], _ => acc
  | _, [] => acc
  | i :: is', m :: ms => zip_update (assoc_set acc i m) is' ms

/-- The per-chunk hydration loop of `index_folder_get_top_level_metadata`:
one response per chunk; `.ok none` models `return False`, an error a raised
`KeyError`. -/
def hydrate_chunks : List (List String) → List (Option RouteResponse) →
    List (String × JValue) → Except PyErr (Option (List (String × JValue)))
  | [], _, acc => .ok (some acc)
  | _ :: _, [], _ => .ok none
  | chunk :: restC, r :: restR, acc =>
    match r with
    | none => .ok none
    | some resp =>
      if ¬ py_is_dict resp.data then .ok none
      else do
        let msgs ← py_get_item resp.data "messages"
        match msgs with
        | .jarr messages => hydrate_chunks restC restR (zip_update acc chunk messages)
        | _ => .ok none

/-- `index_folder_get_top_level_metadata(folder_name, node)`. -/
def index_folder_get_top_level_metadata (node : FolderNode) (fs : FS)
    (resps : List (Option RouteResponse)) : Except PyErr (Bool × FS) :=
  let folder_id := node.id.getD ""
  let folder_shortcode := node.shortcode.getD ""
  if folder_id = "" ∨ folder_shortcode = "" then .ok (false, fs)
  else
    let resolved := _resolve_index_file fs ".dsed/index/top-level-message-metadata"
      folder_id folder_shortcode
    let metadata_path := resolved.1
    let fs1 := resolved.2
    if (assoc_get fs1 metadata_path).isSome then .ok (true, fs1)
    else
      let resolved2 := _resolve_index_file fs1 ".dsed/index/top-level-messages"
        folder_id folder_shortcode
      let messages_path := resolved2.1
      let fs2 := resolved2.2
      match assoc_get fs2 messages_path with
      | none => .ok (false, fs2)
      | some content => do
        let message_ids ← as_str_list content
        match ← hydrate_chunks (chunk_list message_ids) resps [] with
        | none => .ok (false, fs2)
        | some all_message_metadata =>
          .ok (true, assoc_set fs2 metadata_path (.jobj all_message_metadata))

theorem assoc_get_assoc_set_self {α : Type} (m : List (String × α)) (k : String)
    (v : α) : assoc_get (assoc_set m k v) k = some v := by
  induction m with
  | nil => simp [assoc_set, assoc_get]
  | cons p rest ih =>
    obtain ⟨k', v'⟩ := p
    simp only [assoc_set]
    by_cases hk : k' = k
    · rw [if_pos hk]
      simp [assoc_get, hk]
    · rw [if_neg hk]
      simp [assoc_get, hk, ih]

/-- **C4 (counterexample).** A hydration response whose `messages` list is
shorter than the requested 20-ID chunk is *not* treated as fatal: with two
requested ids and a single returned message, the function reports success and
persists a metadata artifact derived from the malformed response, silently
dropping the unmatched id. -/
theorem hydration_short_response_not_fatal :
    index_folder_get_top_level_metadata ⟨some "F1", some "__f1__", "F"⟩
      [(".dsed/index/top-level-messages" ++ "/" ++ "__f1__" ++ ".json",
        .jarr [.jstr "id1", .jstr "id2"])]
      [some ⟨.jobj [("messages", .jarr [.jobj [("subject", .jstr "hello")]])]⟩] =
      .ok (true,
        [(".dsed/index/top-level-messages" ++ "/" ++ "__f1__" ++ ".json",
          .jarr [.jstr "id1", .jstr "id2"]),
         (".dsed/index/top-level-message-metadata" ++ "/" ++ "__f1__" ++ ".json",
          .jobj [("id1", .jobj [("subject", .jstr "hello")])])]) ∧
    chunk_list ["id1", "id2"] = [["id1", "id2"]] := by
  constructor
  · rfl
  · rfl

/-- Hydration-path shape handling of `index_folder_get_top_level_metadata`:
a response that failed, or whose data is not a dict, or whose `messages`
value is not a list makes the folder fail with nothing persisted (whenever
the function returns `False` the filesystem is returned unchanged, given no
legacy id-named ID-list file to migrate); a missing `messages` key raises
`KeyError`, aborting the run before anything is written; but a `messages`
list shorter than its chunk is not detected — the ids are paired positionally
and the unmatched ids are silently dropped from the persisted artifact. -/
theorem index_folder_get_top_level_metadata_spec :
    (∀ (node : FolderNode) (fs : FS) (resps : List (Option RouteResponse))
      (b : Bool) (fs' : FS),
      assoc_get fs (".dsed/index/top-level-messages" ++ "/" ++
        node.id.getD "" ++ ".json") = none →
      index_folder_get_top_level_metadata node fs resps = .ok (b, fs') →
      b = false → fs' = fs) ∧
    (∀ (chunk : List String) (restC : List (List String))
      (restR : List (Option RouteResponse)) (acc : List (String × JValue))
      (fields : List (String × JValue)),
      assoc_get fields "messages" = none →
      hydrate_chunks (chunk :: restC) (some ⟨.jobj fields⟩ :: restR) acc =
        .error (.keyError "messages")) ∧
    (∀ (chunk : List String) (restC : List (List String))
      (restR : List (Option RouteResponse)) (acc : List (String × JValue))
      (d : JValue), py_is_dict d = false →
      hydrate_chunks (chunk :: restC) (some ⟨d⟩ :: restR) acc = .ok none) ∧
    (∀ (chunk : List String) (restC : List (List String))
      (restR : List (Option RouteResponse)) (acc : List (String × JValue)),
      hydrate_chunks (chunk :: restC) (none :: restR) acc = .ok none) ∧
    (∀ (acc : List (String × JValue)) (chunk : List String)
      (messages : List JValue) (restC : List (List String))
      (restR : List (Option RouteResponse)) (fields : List (String × JValue)),
      assoc_get fields "messages" = some (.jarr messages) →
      hydrate_chunks (chunk :: restC) (some ⟨.jobj fields⟩ :: restR) acc =
        hydrate_chunks restC restR (zip_update acc chunk messages)) := by
  refine ⟨?_, ?_, ?_, ?_, ?_⟩
  · intro node fs resps b fs' hnoold hrun hb
    subst hb
    simp only [index_folder_get_top_level_metadata] at hrun
    by_cases hfalsy : node.id.getD "" = "" ∨ node.shortcode.getD "" = ""
    · rw [if_pos hfalsy] at hrun
      exact ((Prod.mk.inj (Except.ok.inj hrun)).2).symm
    · rw [if_neg hfalsy] at hrun
      -- metadata-file resolution
      rcases hmdn : assoc_get fs (".dsed/index/top-level-message-metadata" ++ "/"
          ++ node.shortcode.getD "" ++ ".json") with _ | mdv
      · rcases hmdo : assoc_get fs (".dsed/index/top-level-message-metadata" ++ "/"
            ++ node.id.getD "" ++ ".json") with _ | mdov
        · -- no metadata file at all: fs1 = fs
          rw [show _resolve_index_file fs ".dsed/index/top-level-message-metadata"
              (node.id.getD "") (node.shortcode.getD "") =
              (".dsed/index/top-level-message-metadata" ++ "/" ++
                node.shortcode.getD "" ++ ".json", fs) by
            simp only [_resolve_index_file, hmdn, hmdo]] at hrun
          simp only [hmdn, Option.isSome_none, Bool.false_eq_true, if_false] at hrun
          -- message-file resolution: legacy file absent, so fs2 = fs
          rw [show _resolve_index_file fs ".dsed/index/top-level-messages"
              (node.id.getD "") (node.shortcode.getD "") =
              (".dsed/index/top-level-messages" ++ "/" ++
                node.shortcode.getD "" ++ ".json", fs) by
            simp only [_resolve_index_file, hnoold]
            rcases assoc_get fs (".dsed/index/top-level-messages" ++ "/" ++
              node.shortcode.getD "" ++ ".json") with _ | v <;> rfl] at hrun
          split at hrun
          · exact ((Prod.mk.inj (Except.ok.inj hrun)).2).symm
          · rcases hstr : as_str_list (by assumption : JValue) with e | ids
            all_goals rename_i content heq
            all_goals rw [hstr] at hrun
            · rw [except_bind_err] at hrun
              exact absurd hrun (by simp)
            · rw [except_bind_ok] at hrun
              rcases hhyd : hydrate_chunks (chunk_list ids) resps [] with e | res
              · rw [hhyd, except_bind_err] at hrun
                exact absurd hrun (by simp)
              · rw [hhyd, except_bind_ok] at hrun
                rcases res with _ | all
                · exact ((Prod.mk.inj (Except.ok.inj hrun)).2).symm
                · exact absurd (Prod.mk.inj (Except.ok.inj hrun)).1 (by simp)
        · -- legacy metadata file migrated: the new path now exists, success
          rw [show _resolve_index_file fs ".dsed/index/top-level-message-metadata"
              (node.id.getD "") (node.shortcode.getD "") =
              (".dsed/index/top-level-message-metadata" ++ "/" ++
                node.shortcode.getD "" ++ ".json",
               assoc_set fs (".dsed/index/top-level-message-metadata" ++ "/" ++
                node.shortcode.getD "" ++ ".json") mdov) by
            simp only [_resolve_index_file, hmdn, hmdo]] at hrun
          rw [assoc_get_assoc_set_self] at hrun
          simp only [Option.isSome_some, if_true] at hrun
          exact absurd (Prod.mk.inj (Except.ok.inj hrun)).1 (by simp)
      · -- metadata checkpoint already present
        rw [show _resolve_index_file fs ".dsed/index/top-level-message-metadata"
            (node.id.getD "") (node.shortcode.getD "") =
            (".dsed/index/top-level-message-metadata" ++ "/" ++
              node.shortcode.getD "" ++ ".json", fs) by
          simp only [_resolve_index_file, hmdn]] at hrun
        rw [hmdn] at hrun
        simp only [Option.isSome_some, if_true] at hrun
        exact absurd (Prod.mk.inj (Except.ok.inj hrun)).1 (by simp)
  · intro chunk restC restR acc fields hmiss
    simp only [hydrate_chunks, py_is_dict, not_true, Bool.false_eq_true, if_false,
      py_get_item, hmiss]
    rfl
  · intro chunk restC restR acc d hd
    simp only [hydrate_chunks, hd]
    rfl
  · intro chunk restC restR acc
    rfl
  · intro acc chunk messages restC restR fields hmsgs
    simp only [hydrate_chunks, py_is_dict, not_true, Bool.false_eq_true, if_false,
      py_get_item, hmsgs]
    rfl

theorem hydrate_chunks_missing_key :
    hydrate_chunks [["id1"]] [some ⟨.jobj [("other", .jnull)]⟩] [] =
      .error (.keyError "messages") :=
  index_folder_get_top_level_metadata_spec.2.1 ["id1"] [] [] [] [("other", .jnull)]
    rfl

/-- **C4 (amended).** Shape validation of the two consumers of remote index
responses.  Hydration: a failed response, non-dict data, or a non-list
`messages` value makes the folder fail with nothing persisted; a missing
`messages` key raises `KeyError`; but a `messages` list shorter than its
chunk is not detected — ids are paired positionally and unmatched ids are
silently dropped from the persisted artifact.  Folder metadata: the shape
check only prints (no `return False`), so a non-dict response or missing
`counts`/`totalItemCount` aborts only via the raised
`TypeError`/`KeyError` of the subsequent subscripts, while a present
non-integer numeric `totalItemCount` (a JSON float, for which
`isinstance(..., int)` is `False`) is merely warned about: the discrepancy
comparison silently proceeds with the float and the check can still report
success. -/
theorem index_shape_validation_spec :
    (∀ (node : FolderNode) (fs : FS) (resps : List (Option RouteResponse))
      (b : Bool) (fs' : FS),
      assoc_get fs (".dsed/index/top-level-messages" ++ "/" ++
        node.id.getD "" ++ ".json") = none →
      index_folder_get_top_level_metadata node fs resps = .ok (b, fs') →
      b = false → fs' = fs) ∧
    (∀ (chunk : List String) (restC : List (List String))
      (restR : List (Option RouteResponse)) (acc : List (String × JValue))
      (fields : List (String × JValue)),
      assoc_get fields "messages" = none →
      hydrate_chunks (chunk :: restC) (some ⟨.jobj fields⟩ :: restR) acc =
        .error (.keyError "messages")) ∧
    (∀ (chunk : List String) (restC : List (List String))
      (restR : List (Option RouteResponse)) (acc : List (String × JValue))
      (d : JValue), py_is_dict d = false →
      hydrate_chunks (chunk :: restC) (some ⟨d⟩ :: restR) acc = .ok none) ∧
    (∀ (chunk : List String) (restC : List (List String))
      (restR : List (Option RouteResponse)) (acc : List (String × JValue)),
      hydrate_chunks (chunk :: restC) (none :: restR) acc = .ok none) ∧
    (∀ (acc : List (String × JValue)) (chunk : List String)
      (messages : List JValue) (restC : List (List String))
      (restR : List (Option RouteResponse)) (fields : List (String × JValue)),
      assoc_get fields "messages" = some (.jarr messages) →
      hydrate_chunks (chunk :: restC) (some ⟨.jobj fields⟩ :: restR) acc =
        hydrate_chunks restC restR (zip_update acc chunk messages)) ∧
    (∀ (node : FolderNode) (fs : FS) (fid fsc : String) (v data : JValue)
      (e : PyErr),
      node.id = some fid → fid ≠ "" →
      node.shortcode = some fsc → fsc ≠ "" →
      assoc_get fs (".dsed/index/top-level-messages" ++ "/" ++ fsc ++
        ".json") = some v →
      py_get_item data "counts" = .error e →
      index_folder_sanity_check node fs (some ⟨data⟩) = .error e) ∧
    (∀ (node : FolderNode) (fs : FS) (fid fsc : String)
      (v data counts : JValue) (e : PyErr),
      node.id = some fid → fid ≠ "" →
      node.shortcode = some fsc → fsc ≠ "" →
      assoc_get fs (".dsed/index/top-level-messages" ++ "/" ++ fsc ++
        ".json") = some v →
      py_get_item data "counts" = .ok counts →
      py_get_item counts "totalItemCount" = .error e →
      index_folder_sanity_check node fs (some ⟨data⟩) = .error e) ∧
    (∀ (a : Int) (q : Rat) (n : Nat),
      py_num_discrepancy_exceeds a q n = true ↔
        ((n : Rat) < |(a : Rat) - q|)) ∧
    (∀ (node : FolderNode) (fs : FS) (fid fsc : String) (ids : List String)
      (data counts : JValue) (q : Rat),
      node.id = some fid → fid ≠ "" →
      node.shortcode = some fsc → fsc ≠ "" →
      assoc_get fs (".dsed/index/top-level-messages" ++ "/" ++ fsc ++
        ".json") = some (.jarr (ids.map .jstr)) →
      py_get_item data "counts" = .ok counts →
      py_get_item counts "totalItemCount" = .ok (.jfloat q) →
      py_is_int (.jfloat q) = false ∧
      index_folder_sanity_check node fs (some ⟨data⟩) =
        .ok (decide ((py_num_discrepancy_exceeds (ids.length : Int) q
          INDEX_SANITY_CHECK_MAX_DISCREPANCY = false) ∧ ids.Nodup), fs)) := by
  refine ⟨index_folder_get_top_level_metadata_spec.1,
    index_folder_get_top_level_metadata_spec.2.1,
    index_folder_get_top_level_metadata_spec.2.2.1,
    index_folder_get_top_level_metadata_spec.2.2.2.1,
    index_folder_get_top_level_metadata_spec.2.2.2.2,
    ?_, ?_, py_num_discrepancy_exceeds_iff, ?_⟩
  · intro node fs fid fsc v data e hid hfid hsc hfsc hfile herr
    rw [index_folder_sanity_check_run node fs fid fsc v data hid hfid hsc
      hfsc hfile]
    rw [index_folder_sanity_check_core_counts_err data _ e herr]
    rfl
  · intro node fs fid fsc v data counts e hid hfid hsc hfsc hfile hcounts
      htotal
    rw [index_folder_sanity_check_run node fs fid fsc v data hid hfid hsc
      hfsc hfile]
    rw [index_folder_sanity_check_core_total_err data counts _ e hcounts
      htotal]
    rfl
  · intro node fs fid fsc ids data counts q hid hfid hsc hfsc hfile hcounts
      htotal
    refine ⟨rfl, ?_⟩
    rw [index_folder_sanity_check_run node fs fid fsc (.jarr (ids.map .jstr))
      data hid hfid hsc hfsc hfile]
    change (index_folder_sanity_check_core data
      (.ok (ids.map .jstr))).map (fun b => (b, fs)) = _
    rw [index_folder_sanity_check_core_float ids data counts q hcounts htotal]
    rfl

/-- Closed witness for the amended C4: a `totalItemCount` of `52.0` (a float)
against two indexed ids is silently accepted — the sanity check returns
`True` — and a response object with no `messages` key makes the hydration
loop raise `KeyError("messages")`. -/
theorem index_shape_validation_spec_witness :
    index_folder_sanity_check ⟨some "F1", some "__f1__", "F"⟩
      [(".dsed/index/top-level-messages" ++ "/" ++ "__f1__" ++ ".json",
        .jarr [.jstr "a", .jstr "b"])]
      (some ⟨.jobj [("counts",
        .jobj [("totalItemCount", .jfloat (mkRat 52 1))])]⟩) =
      .ok (true,
        [(".dsed/index/top-level-messages" ++ "/" ++ "__f1__" ++ ".json",
          .jarr [.jstr "a", .jstr "b"])]) ∧
    hydrate_chunks [["id1"]] [some ⟨.jobj [("k", .jnull)]⟩] [] =
      .error (.keyError "messages") := by
  constructor
  · have h := index_shape_validation_spec.2.2.2.2.2.2.2.2
      ⟨some "F1", some "__f1__", "F"⟩
      [(".dsed/index/top-level-messages" ++ "/" ++ "__f1__" ++ ".json",
        .jarr [.jstr "a", .jstr "b"])]
      "F1" "__f1__" ["a", "b"]
      (.jobj [("counts", .jobj [("totalItemCount", .jfloat (mkRat 52 1))])])
      (.jobj [("totalItemCount", .jfloat (mkRat 52 1))]) (mkRat 52 1)
      rfl (by decide) rfl (by decide) (by rfl) (by rfl) (by rfl)
    rw [h.2]
    rfl
  · exact index_shape_validation_spec.2.1 ["id1"] [] [] [] [("k", .jnull)] rfl

/-! ## Per-folder ID listing (`index_folder_get_top_level_ids`) -/

/-- `d.get(k, None)` (only used on dicts). -/
def py_dict_get (v : JValue) (k : String) : Option JValue :=
  match v with
  | .jobj fields => assoc_get fields k
  | _ => none

/-- The `while next_link:` pagination loop, accumulating message IDs.  One
response is consumed per request; the `Nat` counts requests made.  `.ok none`
models `return False`.  (`message_ids.extend` of a non-list is not modelled
beyond raising.) -/
def get_id_list_loop : List (Option RouteResponse) → List JValue →
    Option JValue → Nat → Except PyErr (Option (List JValue) × Nat)
  | resps, ids, next_link, count =>
    if ¬ py_truthy next_link then .ok (some ids, count)
    else
      match resps with
      | [] => .ok (none, count)
      | r :: rest =>
        match r with
        | none => .ok (none, count + 1)
        | some resp =>
          if ¬ py_is_dict resp.data then .ok (none, count + 1)
          else do
            let more ← py_get_item resp.data "messageIds"
            match more with
            | .jarr newIds =>
              get_id_list_loop rest (ids ++ newIds)
                (py_dict_get resp.data "nextLink") (count + 1)
            | _ => .error .typeError

/-- `index_folder_get_top_level_ids(node)`: skip entirely when the checkpoint
file exists; otherwise page through the listing and persist the full ID list
only after the last page.  Returns `(success, filesystem, request count)`. -/
def index_folder_get_top_level_ids (node : FolderNode) (fs : FS)
    (resps : List (Option RouteResponse)) : Except PyErr (Bool × FS × Nat) :=
  let folder_id := node.id.getD ""
  let folder_shortcode := node.shortcode.getD ""
  if folder_id = "" ∨ folder_shortcode = "" then .ok (false, fs, 0)
  else
    let resolved := _resolve_index_file fs ".dsed/index/top-level-messages"
      folder_id folder_shortcode
    let target_path := resolved.1
    let fs1 := resolved.2
    if (assoc_get fs1 target_path).isSome then .ok (true, fs1, 0)
    else
      match resps with
      | [] => .ok (false, fs1, 1)
      | r :: rest =>
        match r with
        | none => .ok (false, fs1, 1)
        | some resp =>
          if ¬ py_is_dict resp.data then .ok (false, fs1, 1)
          else do
            let ids ← py_get_item resp.data "messageIds"
            match ids with
            | .jarr message_ids => do
              let res ← get_id_list_loop rest message_ids
                (py_dict_get resp.data "nextLink") 1
              match res.1 with
              | none => .ok (false, fs1, res.2)
              | some final_ids =>
                .ok (true, assoc_set fs1 target_path (.jarr final_ids), res.2)
            | _ => .error .typeError

/-- **C6.** If the folder's ID-list checkpoint exists, the lister makes no
remote request and returns `True` with the filesystem unchanged; whenever it
returns `False` (in particular when a page request fails or returns non-dict
data, as the last two conjuncts show for the pagination loop) the filesystem
is unchanged — no partial ID-list file is ever written. -/
theorem index_folder_get_top_level_ids_spec :
    (∀ (node : FolderNode) (fs : FS) (resps : List (Option RouteResponse))
      (v : JValue),
      assoc_get fs (".dsed/index/top-level-messages" ++ "/" ++
        node.shortcode.getD "" ++ ".json") = some v →
      node.id.getD "" ≠ "" → node.shortcode.getD "" ≠ "" →
      index_folder_get_top_level_ids node fs resps = .ok (true, fs, 0)) ∧
    (∀ (node : FolderNode) (fs : FS) (resps : List (Option RouteResponse))
      (b : Bool) (fs' : FS) (n : Nat),
      index_folder_get_top_level_ids node fs resps = .ok (b, fs', n) →
      b = false → fs' = fs) ∧
    (∀ (rest : List (Option RouteResponse)) (ids : List JValue)
      (nl : Option JValue) (c : Nat), py_truthy nl = true →
      get_id_list_loop (none :: rest) ids nl c = .ok (none, c + 1)) ∧
    (∀ (rest : List (Option RouteResponse)) (ids : List JValue)
      (nl : Option JValue) (c : Nat) (d : JValue),
      py_truthy nl = true → py_is_dict d = false →
      get_id_list_loop (some ⟨d⟩ :: rest) ids nl c = .ok (none, c + 1)) := by
  refine ⟨?_, ?_, ?_, ?_⟩
  · intro node fs resps v hfile hfid hfsc
    simp only [index_folder_get_top_level_ids]
    rw [if_neg (by simp [hfid, hfsc])]
    rw [show _resolve_index_file fs ".dsed/index/top-level-messages"
        (node.id.getD "") (node.shortcode.getD "") =
        (".dsed/index/top-level-messages" ++ "/" ++
          node.shortcode.getD "" ++ ".json", fs) by
      simp only [_resolve_index_file, hfile]]
    simp only [hfile, Option.isSome_some, if_true]
  · intro node fs resps b fs' n hrun hb
    subst hb
    simp only [index_folder_get_top_level_ids] at hrun
    by_cases hfalsy : node.id.getD "" = "" ∨ node.shortcode.getD "" = ""
    · rw [if_pos hfalsy] at hrun
      exact ((Prod.mk.inj (Prod.mk.inj (Except.ok.inj hrun)).2).1).symm
    · rw [if_neg hfalsy] at hrun
      rcases hnew : assoc_get fs (".dsed/index/top-level-messages" ++ "/"
          ++ node.shortcode.getD "" ++ ".json") with _ | v
      · rcases hold : assoc_get fs (".dsed/index/top-level-messages" ++ "/"
            ++ node.id.getD "" ++ ".json") with _ | ov
        · rw [show _resolve_index_file fs ".dsed/index/top-level-messages"
              (node.id.getD "") (node.shortcode.getD "") =
              (".dsed/index/top-level-messages" ++ "/" ++
                node.shortcode.getD "" ++ ".json", fs) by
            simp only [_resolve_index_file, hnew, hold]] at hrun
          simp only [hnew, Option.isSome_none, Bool.false_eq_true, if_false] at hrun
          split at hrun
          · exact ((Prod.mk.inj (Prod.mk.inj (Except.ok.inj hrun)).2).1).symm
          · split at hrun
            · exact ((Prod.mk.inj (Prod.mk.inj (Except.ok.inj hrun)).2).1).symm
            · rename_i rrest rhead resp
              by_cases hdict : py_is_dict resp.data
              · rw [if_neg (by simpa using hdict)] at hrun
                rcases hids : py_get_item resp.data "messageIds" with e | idsv
                · rw [hids, except_bind_err] at hrun
                  exact absurd hrun (by simp)
                · rw [hids, except_bind_ok] at hrun
                  split at hrun
                  · rename_i message_ids
                    rcases hloop : get_id_list_loop rrest
                        message_ids (py_dict_get resp.data "nextLink") 1 with e | res
                    · rw [hloop, except_bind_err] at hrun
                      exact absurd hrun (by simp)
                    · rw [hloop, except_bind_ok] at hrun
                      split at hrun
                      · exact ((Prod.mk.inj (Prod.mk.inj (Except.ok.inj hrun)).2).1).symm
                      · exact absurd (Prod.mk.inj (Except.ok.inj hrun)).1 (by simp)
                  · exact absurd hrun (by simp)
              · rw [if_pos (by simpa using hdict)] at hrun
                exact ((Prod.mk.inj (Prod.mk.inj (Except.ok.inj hrun)).2).1).symm
        · rw [show _resolve_index_file fs ".dsed/index/top-level-messages"
              (node.id.getD "") (node.shortcode.getD "") =
              (".dsed/index/top-level-messages" ++ "/" ++
                node.shortcode.getD "" ++ ".json",
               assoc_set fs (".dsed/index/top-level-messages" ++ "/" ++
                node.shortcode.getD "" ++ ".json") ov) by
            simp only [_resolve_index_file, hnew, hold]] at hrun
          rw [assoc_get_assoc_set_self] at hrun
          simp only [Option.isSome_some, if_true] at hrun
          exact absurd (Prod.mk.inj (Except.ok.inj hrun)).1 (by simp)
      · rw [show _resolve_index_file fs ".dsed/index/top-level-messages"
            (node.id.getD "") (node.shortcode.getD "") =
            (".dsed/index/top-level-messages" ++ "/" ++
              node.shortcode.getD "" ++ ".json", fs) by
          simp only [_resolve_index_file, hnew]] at hrun
        rw [hnew] at hrun
        simp only [Option.isSome_some, if_true] at hrun
        exact absurd (Prod.mk.inj (Except.ok.inj hrun)).1 (by simp)
  · intro rest ids nl c hnl
    rw [get_id_list_loop]
    rw [if_neg (by simpa using hnl)]
  · intro rest ids nl c d hnl hd
    rw [get_id_list_loop]
    rw [if_neg (by simpa using hnl)]
    simp only [hd, Bool.false_eq_true, not_false_iff, if_true]

/-- Closed witness for C6: with the checkpoint already on disk, the lister
returns `True`, makes zero requests and leaves the filesystem alone. -/
theorem index_folder_get_top_level_ids_spec_witness :
    index_folder_get_top_level_ids ⟨some "F1", some "__f1__", "F"⟩
      [(".dsed/index/top-level-messages" ++ "/" ++ "__f1__" ++ ".json",
        .jarr [.jstr "a"])] [] =
      .ok (true,
        [(".dsed/index/top-level-messages" ++ "/" ++ "__f1__" ++ ".json",
          .jarr [.jstr "a"])], 0) :=
  index_folder_get_top_level_ids_spec.1 ⟨some "F1", some "__f1__", "F"⟩
    [(".dsed/index/top-level-messages" ++ "/" ++ "__f1__" ++ ".json",
      .jarr [.jstr "a"])] [] (.jarr [.jstr "a"]) rfl
    (by decide) (by decide)

/-! ## Cache Builder / Downloader
(`pysrc/helpers/outlook/downloading.py`, `download_all_folders`)

The message/conversation/folder loops of a (non-reset) download run.  The
cache state is the list of directories that exist (`_ensure_dir` creates,
never consults); `_export_message_by_id` is an oracle from message id to
success.  The result is `(success, exported-ids-in-invocation-order,
directories)`; a failed export aborts with `return -1` (`success = false`). -/

structure DlMessage where
  id : Option String
  shortcode : Option String

structure DlConversation where
  conversationId : Option String
  conversationShortcode : Option String
  messages : List DlMessage

def _ensure_dir (dirs : List String) (path : String) : List String :=
  if path ∈ dirs then dirs else dirs ++ [path]

/-- The `for message_meta in conversation.get("messages", [])` loop. -/
def download_messages_loop (export_ok : String → Bool) (conv_dir : String)
    (dirs : List String) : List DlMessage → Bool × List String × List String
  | [] => (true, [], dirs)
  | m :: rest =>
    if m.id.getD "" = "" ∨ m.shortcode.getD "" = "" then
      download_messages_loop export_ok conv_dir dirs rest
    else
      let msg_dir := conv_dir ++ "/" ++ m.shortcode.getD ""
      let dirs1 := _ensure_dir dirs msg_dir
      if export_ok (m.id.getD "") then
        let r := download_messages_loop export_ok conv_dir dirs1 rest
        (r.1, m.id.getD "" :: r.2.1, r.2.2)
      else (false, [m.id.getD ""], dirs1)

/-- The `for conversation in conversations` loop. -/
def download_conversations_loop (export_ok : String → Bool)
    (folder_cache_dir : String) (dirs : List String) :
    List DlConversation → Bool × List String × List String
  | [] => (true, [], dirs)
  | conv :: rest =>
    if conv.conversationId.getD "" = "" ∨
        conv.conversationShortcode.getD "" = "" then
      download_conversations_loop export_ok folder_cache_dir dirs rest
    else
      let conv_dir := folder_cache_dir ++ "/" ++ conv.conversationShortcode.getD ""
      let dirs1 := _ensure_dir dirs conv_dir
      let r := download_messages_loop export_ok conv_dir dirs1 conv.messages
      if r.1 then
        let r2 := download_conversations_loop export_ok folder_cache_dir r.2.2 rest
        (r2.1, r.2.1 ++ r2.2.1, r2.2.2)
      else (false, r.2.1, r.2.2)

/-- The `for i, (folder_name, node) in enumerate(folders)` loop, with each
folder reduced to its shortcode and loaded conversations. -/
def download_all_folders_loop (export_ok : String → Bool) (dirs : List String) :
    List (String × List DlConversation) → Bool × List String × List String
  | [] => (true, [], dirs)
  | (folder_shortcode, convs) :: rest =>
    let folder_cache_dir := ".dsed/caches" ++ "/" ++ folder_shortcode
    let dirs1 := _ensure_dir dirs folder_cache_dir
    let r := download_conversations_loop export_ok folder_cache_dir dirs1 convs
    if r.1 then
      let r2 := download_all_folders_loop export_ok r.2.2 rest
      (r2.1, r.2.1 ++ r2.2.1, r2.2.2)
    else (false, r.2.1, r.2.2)

/-- The messages the loops hand to the per-message export: every message
carrying an id and shortcode inside every conversation carrying a
conversation id and shortcode. -/
def eligible_message_ids (convs : List DlConversation) : List String :=
  (convs.filter (fun c => ¬ (c.conversationId.getD "" = "" ∨
      c.conversationShortcode.getD "" = ""))).flatMap
    (fun c => (c.messages.filter (fun m => ¬ (m.id.getD "" = "" ∨
        m.shortcode.getD "" = ""))).map (fun m => m.id.getD ""))

def eligible_all_ids (folders : List (String × List DlConversation)) :
    List String :=
  folders.flatMap (fun f => eligible_message_ids f.2)

theorem download_messages_loop_dirs_indep (export_ok : String → Bool)
    (conv_dir : String) (msgs : List DlMessage) :
    ∀ dirs dirs' : List String,
      (download_messages_loop export_ok conv_dir dirs msgs).1 =
        (download_messages_loop export_ok conv_dir dirs' msgs).1 ∧
      (download_messages_loop export_ok conv_dir dirs msgs).2.1 =
        (download_messages_loop export_ok conv_dir dirs' msgs).2.1 := by
  induction msgs with
  | nil => intro dirs dirs'; exact ⟨rfl, rfl⟩
  | cons m rest ih =>
    intro dirs dirs'
    simp only [download_messages_loop]
    by_cases hskip : m.id.getD "" = "" ∨ m.shortcode.getD "" = ""
    · rw [if_pos hskip, if_pos hskip]
      exact ih dirs dirs'
    · rw [if_neg hskip, if_neg hskip]
      by_cases hok : export_ok (m.id.getD "") = true
      · rw [if_pos hok, if_pos hok]
        obtain ⟨h1, h2⟩ := ih
          (_ensure_dir dirs (conv_dir ++ "/" ++ m.shortcode.getD ""))
          (_ensure_dir dirs' (conv_dir ++ "/" ++ m.shortcode.getD ""))
        exact ⟨h1, by rw [h2]⟩
      · rw [if_neg hok, if_neg hok]
        exact ⟨rfl, rfl⟩

theorem download_conversations_loop_dirs_indep (export_ok : String → Bool)
    (folder_cache_dir : String) (convs : List DlConversation) :
    ∀ dirs dirs' : List String,
      (download_conversations_loop export_ok folder_cache_dir dirs convs).1 =
        (download_conversations_loop export_ok folder_cache_dir dirs' convs).1 ∧
      (download_conversations_loop export_ok folder_cache_dir dirs convs).2.1 =
        (download_conversations_loop export_ok folder_cache_dir dirs' convs).2.1 := by
  induction convs with
  | nil => intro dirs dirs'; exact ⟨rfl, rfl⟩
  | cons conv rest ih =>
    intro dirs dirs'
    simp only [download_conversations_loop]
    by_cases hskip : conv.conversationId.getD "" = "" ∨
        conv.conversationShortcode.getD "" = ""
    · rw [if_pos hskip, if_pos hskip]
      exact ih dirs dirs'
    · rw [if_neg hskip, if_neg hskip]
      obtain ⟨hm1, hm2⟩ := download_messages_loop_dirs_indep export_ok
        (folder_cache_dir ++ "/" ++ conv.conversationShortcode.getD "")
        conv.messages
        (_ensure_dir dirs (folder_cache_dir ++ "/" ++ conv.conversationShortcode.getD ""))
        (_ensure_dir dirs' (folder_cache_dir ++ "/" ++ conv.conversationShortcode.getD ""))
      by_cases hsucc : (download_messages_loop export_ok
          (folder_cache_dir ++ "/" ++ conv.conversationShortcode.getD "")
          (_ensure_dir dirs (folder_cache_dir ++ "/" ++
            conv.conversationShortcode.getD "")) conv.messages).1 = true
      · rw [if_pos hsucc, if_pos (hm1 ▸ hsucc)]
        obtain ⟨hr1, hr2⟩ := ih
          (download_messages_loop export_ok _ (_ensure_dir dirs _) conv.messages).2.2
          (download_messages_loop export_ok _ (_ensure_dir dirs' _) conv.messages).2.2
        exact ⟨hr1, by rw [hm2, hr2]⟩
      · rw [if_neg hsucc, if_neg (fun h => hsucc (hm1 ▸ h))]
        exact ⟨rfl, hm2⟩

theorem download_all_folders_loop_dirs_indep (export_ok : String → Bool)
    (folders : List (String × List DlConversation)) :
    ∀ dirs dirs' : List String,
      (download_all_folders_loop export_ok dirs folders).1 =
        (download_all_folders_loop export_ok dirs' folders).1 ∧
      (download_all_folders_loop export_ok dirs folders).2.1 =
        (download_all_folders_loop export_ok dirs' folders).2.1 := by
  induction folders with
  | nil => intro dirs dirs'; exact ⟨rfl, rfl⟩
  | cons f rest ih =>
    obtain ⟨fsc, convs⟩ := f
    intro dirs dirs'
    simp only [download_all_folders_loop]
    obtain ⟨hc1, hc2⟩ := download_conversations_loop_dirs_indep export_ok
      (".dsed/caches" ++ "/" ++ fsc) convs
      (_ensure_dir dirs (".dsed/caches" ++ "/" ++ fsc))
      (_ensure_dir dirs' (".dsed/caches" ++ "/" ++ fsc))
    by_cases hsucc : (download_conversations_loop export_ok
        (".dsed/caches" ++ "/" ++ fsc)
        (_ensure_dir dirs (".dsed/caches" ++ "/" ++ fsc)) convs).1 = true
    · rw [if_pos hsucc, if_pos (hc1 ▸ hsucc)]
      obtain ⟨hr1, hr2⟩ := ih
        (download_conversations_loop export_ok _ (_ensure_dir dirs _) convs).2.2
        (download_conversations_loop export_ok _ (_ensure_dir dirs' _) convs).2.2
      exact ⟨hr1, by rw [hc2, hr2]⟩
    · rw [if_neg hsucc, if_neg (fun h => hsucc (hc1 ▸ h))]
      exact ⟨rfl, hc2⟩

theorem download_messages_loop_all_ok (export_ok : String → Bool)
    (h : ∀ i, export_ok i = true) (conv_dir : String) (msgs : List DlMessage) :
    ∀ dirs : List String,
      (download_messages_loop export_ok conv_dir dirs msgs).1 = true ∧
      (download_messages_loop export_ok conv_dir dirs msgs).2.1 =
        (msgs.filter (fun m => ¬ (m.id.getD "" = "" ∨
          m.shortcode.getD "" = ""))).map (fun m => m.id.getD "") := by
  induction msgs with
  | nil => intro dirs; exact ⟨rfl, rfl⟩
  | cons m rest ih =>
    intro dirs
    simp only [download_messages_loop, List.filter_cons]
    by_cases hskip : m.id.getD "" = "" ∨ m.shortcode.getD "" = ""
    · rw [if_pos hskip]
      rw [show (decide (¬ (m.id.getD "" = "" ∨ m.shortcode.getD "" = ""))) = false
        from decide_eq_false (not_not_intro hskip)]
      simpa using ih dirs
    · rw [if_neg hskip]
      rw [if_pos (h (m.id.getD ""))]
      rw [show (decide (¬ (m.id.getD "" = "" ∨ m.shortcode.getD "" = ""))) = true
        from decide_eq_true hskip]
      obtain ⟨h1, h2⟩ := ih (_ensure_dir dirs (conv_dir ++ "/" ++ m.shortcode.getD ""))
      exact ⟨h1, by simp [h2]⟩

theorem download_conversations_loop_all_ok (export_ok : String → Bool)
    (h : ∀ i, export_ok i = true) (folder_cache_dir : String)
    (convs : List DlConversation) :
    ∀ dirs : List String,
      (download_conversations_loop export_ok folder_cache_dir dirs convs).1 = true ∧
      (download_conversations_loop export_ok folder_cache_dir dirs convs).2.1 =
        eligible_message_ids convs := by
  induction convs with
  | nil => intro dirs; exact ⟨rfl, rfl⟩
  | cons conv rest ih =>
    intro dirs
    simp only [download_conversations_loop, eligible_message_ids, List.filter_cons]
    by_cases hskip : conv.conversationId.getD "" = "" ∨
        conv.conversationShortcode.getD "" = ""
    · rw [if_pos hskip]
      rw [show (decide (¬ (conv.conversationId.getD "" = "" ∨
          conv.conversationShortcode.getD "" = ""))) = false
        from decide_eq_false (not_not_intro hskip)]
      have := ih dirs
      rw [eligible_message_ids] at this
      exact this
    · rw [if_neg hskip]
      obtain ⟨hm1, hm2⟩ := download_messages_loop_all_ok export_ok h
        (folder_cache_dir ++ "/" ++ conv.conversationShortcode.getD "")
        conv.messages
        (_ensure_dir dirs (folder_cache_dir ++ "/" ++
          conv.conversationShortcode.getD ""))
      rw [if_pos hm1]
      rw [show (decide (¬ (conv.conversationId.getD "" = "" ∨
          conv.conversationShortcode.getD "" = ""))) = true
        from decide_eq_true hskip]
      obtain ⟨hr1, hr2⟩ := ih (download_messages_loop export_ok
        (folder_cache_dir ++ "/" ++ conv.conversationShortcode.getD "")
        (_ensure_dir dirs (folder_cache_dir ++ "/" ++
          conv.conversationShortcode.getD "")) conv.messages).2.2
      rw [eligible_message_ids] at hr2
      refine ⟨hr1, ?_⟩
      simp only [if_true, List.flatMap_cons]
      rw [hm2, hr2]

/-- **C8.** On a (non-reset) download run the per-message export is invoked
for every message carrying an id and shortcode in every conversation carrying
an id and shortcode of every folder, and the set of pre-existing cache
directories has no influence on which messages are exported or on success —
there is no per-message existence check that skips the fetch. -/
theorem download_all_folders_unconditional :
    (∀ (export_ok : String → Bool) (folders : List (String × List DlConversation))
      (dirs dirs' : List String),
      (download_all_folders_loop export_ok dirs folders).1 =
        (download_all_folders_loop export_ok dirs' folders).1 ∧
      (download_all_folders_loop export_ok dirs folders).2.1 =
        (download_all_folders_loop export_ok dirs' folders).2.1) ∧
    (∀ (export_ok : String → Bool) (folders : List (String × List DlConversation))
      (dirs : List String), (∀ i, export_ok i = true) →
      (download_all_folders_loop export_ok dirs folders).1 = true ∧
      (download_all_folders_loop export_ok dirs folders).2.1 =
        eligible_all_ids folders) := by
  constructor
  · exact fun export_ok folders dirs dirs' =>
      download_all_folders_loop_dirs_indep export_ok folders dirs dirs'
  · intro export_ok folders dirs h
    induction folders generalizing dirs with
    | nil => exact ⟨rfl, rfl⟩
    | cons f rest ih =>
      obtain ⟨fsc, convs⟩ := f
      simp only [download_all_folders_loop, eligible_all_ids, List.flatMap_cons]
      obtain ⟨hc1, hc2⟩ := download_conversations_loop_all_ok export_ok h
        (".dsed/caches" ++ "/" ++ fsc) convs
        (_ensure_dir dirs (".dsed/caches" ++ "/" ++ fsc))
      rw [if_pos hc1]
      obtain ⟨hr1, hr2⟩ := ih (download_conversations_loop export_ok
        (".dsed/caches" ++ "/" ++ fsc)
        (_ensure_dir dirs (".dsed/caches" ++ "/" ++ fsc)) convs).2.2
      rw [eligible_all_ids] at hr2
      exact ⟨hr1, by rw [hc2, hr2]⟩

/-- Closed witness for C8: with the message's cache bundle directory already
present, the export is still invoked for the one eligible message. -/
theorem download_all_folders_unconditional_witness :
    (download_all_folders_loop (fun _ => true)
      [".dsed/caches/__f1__/__c1__/__m1__"]
      [("__f1__", [⟨some "CONV1", some "__c1__", [⟨some "M1", some "__m1__"⟩]⟩])]).2.1 =
      eligible_all_ids
        [("__f1__", [⟨some "CONV1", some "__c1__", [⟨some "M1", some "__m1__"⟩]⟩])] :=
  (download_all_folders_unconditional.2 (fun _ => true)
    [("__f1__", [⟨some "CONV1", some "__c1__", [⟨some "M1", some "__m1__"⟩]⟩])]
    [".dsed/caches/__f1__/__c1__/__m1__"] (fun _ => rfl)).2

/-! ## Filesystem-Safe Namer (`pysrc/helpers/outlook/outputting.py`, `_safe_filename`)

Translated over lists of code points.  The Unicode NFC normalization
(`unicodedata.normalize("NFC", ...)`, external library code) is a parameter
`nfc`; Python `str.lower()` is modelled for the ASCII range, which is all the
reserved-device-name comparison can distinguish. -/

def WIN_RESERVED : List String :=
  ["con", "prn", "aux", "nul",
   "com1", "com2", "com3", "com4", "com5", "com6", "com7", "com8", "com9",
   "lpt1", "lpt2", "lpt3", "lpt4", "lpt5", "lpt6", "lpt7", "lpt8", "lpt9"]

def WIN_RESERVED_CHARS : List (List Char) := WIN_RESERVED.map String.toList

def DEFAULT_NAME : String := "INVALID_FILENAME"

def DEFAULT_NAME_CHARS : List Char := DEFAULT_NAME.toList

/-- `[\x00-\x1F\x7F]`. -/
def sf_is_ctl (c : Char) : Bool := c.toNat ≤ 0x1F ∨ c.toNat = 0x7F

/-- The characters of the class `[<>:"/\\|?*]`. -/
def SF_SPECIALS : List Char := ['<', '>', ':', '"', '/', '\\', '|', '?', '*']

def hex_upper (n : Nat) : Char := ("0123456789ABCDEF".toList).getD n '0'

/-- UTF-8 encoding of a code point. -/
def utf8_bytes (n : Nat) : List Nat :=
  if n < 0x80 then [n]
  else if n < 0x800 then [0xC0 + n / 64, 0x80 + n % 64]
  else if n < 0x10000 then
    [0xE0 + n / 4096, 0x80 + (n / 64) % 64, 0x80 + n % 64]
  else
    [0xF0 + n / 262144, 0x80 + (n / 4096) % 64, 0x80 + (n / 64) % 64,
     0x80 + n % 64]

/-- `_utf8_percent_encode(ch)`: `%XX` per UTF-8 byte, uppercase hex. -/
def _utf8_percent_encode (c : Char) : List Char :=
  (utf8_bytes c.toNat).flatMap (fun b => ['%', hex_upper (b / 16), hex_upper (b % 16)])

/-- One iteration of the encoding loop of `_safe_filename`. -/
def sf_encode_char (c : Char) : List Char :=
  if sf_is_ctl c then _utf8_percent_encode c
  else if c = '/' then ['%', '2', 'F']
  else if c ∈ SF_SPECIALS then _utf8_percent_encode c
  else [c]

def sf_encode (name : List Char) : List Char := name.flatMap sf_encode_char

/-- `if not name or re.fullmatch(r"[\x00-\x1F\x7F]+", name): name = DEFAULT`. -/
def sf_empty_fix (name : List Char) : List Char :=
  if name.isEmpty || name.all sf_is_ctl then DEFAULT_NAME_CHARS else name

/-- `if name in {".", ".."}: name = "_" + name`. -/
def sf_dot_fix (name : List Char) : List Char :=
  if name = ['.'] ∨ name = ['.', '.'] then '_' :: name else name

/-- Python `str.lower()` on the ASCII range (non-ASCII case mappings cannot
produce the all-ASCII reserved names compared against). -/
def py_char_lower (c : Char) : Char :=
  if 'A' ≤ c ∧ c ≤ 'Z' then Char.ofNat (c.toNat + 32) else c

/-- `raw_base = name.split(".")[0].lower()`. -/
def sf_raw_base (name : List Char) : List Char :=
  (name.takeWhile (fun c => c ≠ '.')).map py_char_lower

/-- `if raw_base in WIN_RESERVED: name = "_" + name`. -/
def sf_reserved_fix (name : List Char) : List Char :=
  if sf_raw_base name ∈ WIN_RESERVED_CHARS then '_' :: name else name

/-- `while name and name[-1] in {" ", "."}: name = name[:-1] + "_"`.  The loop
body replaces the final character with `'_'`, which is in neither set, so the
loop runs at most once; it is therefore one conditional replacement. -/
def sf_trailing_fix (name : List Char) : List Char :=
  match name.getLast? with
  | some c => if c = ' ' ∨ c = '.' then name.dropLast ++ ['_'] else name
  | none => name

/-- `if not name: name = DEFAULT`. -/
def sf_empty_fix2 (name : List Char) : List Char :=
  if name.isEmpty then DEFAULT_NAME_CHARS else name

/-- `_safe_filename(input_name)`, parameterized by the NFC normalizer. -/
def _safe_filename (nfc : List Char → List Char)
    (input_name : Option (List Char)) : List Char :=
  let result := sf_encode (sf_empty_fix2 (sf_trailing_fix (sf_reserved_fix
    (sf_dot_fix (sf_empty_fix (py_strip_chars (nfc (input_name.getD []))))))))
  if result.isEmpty then DEFAULT_NAME_CHARS else result

/-- The re-application of the `while` loop is the identity: the loop never
leaves a trailing space or dot. -/
theorem sf_trailing_fix_idem (name : List Char) :
    sf_trailing_fix (sf_trailing_fix name) = sf_trailing_fix name := by
  rcases hlast : name.getLast? with _ | c
  · have hnil : name = [] := List.getLast?_eq_none_iff.mp hlast
    subst hnil
    rfl
  · by_cases hc : c = ' ' ∨ c = '.'
    · have h1 : sf_trailing_fix name = name.dropLast ++ ['_'] := by
        unfold sf_trailing_fix
        rw [hlast]
        show (if c = ' ' ∨ c = '.' then name.dropLast ++ ['_'] else name) =
          name.dropLast ++ ['_']
        exact if_pos hc
      rw [h1]
      unfold sf_trailing_fix
      rw [List.getLast?_concat]
      show (if '_' = ' ' ∨ '_' = '.' then _ else _) = _
      rw [if_neg (by simp)]
    · have h1 : sf_trailing_fix name = name := by
        unfold sf_trailing_fix
        rw [hlast]
        show (if c = ' ' ∨ c = '.' then name.dropLast ++ ['_'] else name) = name
        exact if_neg hc
      rw [h1, h1]

def HEX_CHARS : List Char := "0123456789ABCDEF".toList

theorem hex_upper_mem (n : Nat) : hex_upper n ∈ HEX_CHARS := by
  unfold hex_upper HEX_CHARS
  rw [List.getD_eq_getElem?_getD]
  rcases hget : ("0123456789ABCDEF".toList)[n]? with _ | c
  · simp only [Option.getD_none]
    decide
  · simp only [Option.getD_some]
    exact List.getElem?_mem hget

theorem mem_utf8_percent_encode (c d : Char)
    (hd : d ∈ _utf8_percent_encode c) : d = '%' ∨ d ∈ HEX_CHARS := by
  unfold _utf8_percent_encode at hd
  obtain ⟨b, _, hd2⟩ := List.mem_flatMap.mp hd
  simp only [List.mem_cons, List.mem_singleton, List.not_mem_nil, or_false] at hd2
  rcases hd2 with rfl | rfl | rfl
  · exact Or.inl rfl
  · exact Or.inr (hex_upper_mem _)
  · exact Or.inr (hex_upper_mem _)

/-- Every character emitted by the encoding loop: either the original
character untouched (in which case it passed all the checks) or a character
of a percent escape. -/
theorem mem_sf_encode_char (c d : Char) (hd : d ∈ sf_encode_char c) :
    (d = c ∧ sf_is_ctl c = false ∧ c ∉ SF_SPECIALS) ∨
      d = '%' ∨ d ∈ HEX_CHARS := by
  unfold sf_encode_char at hd
  by_cases h1 : sf_is_ctl c = true
  · rw [if_pos h1] at hd
    exact Or.inr (mem_utf8_percent_encode c d hd)
  · rw [if_neg h1] at hd
    by_cases h2 : c = '/'
    · rw [if_pos h2] at hd
      simp only [List.mem_cons, List.mem_singleton, List.not_mem_nil, or_false] at hd
      rcases hd with rfl | rfl | rfl
      · exact Or.inr (Or.inl rfl)
      · exact Or.inr (Or.inr (by decide))
      · exact Or.inr (Or.inr (by decide))
    · rw [if_neg h2] at hd
      by_cases h3 : c ∈ SF_SPECIALS
      · rw [if_pos h3] at hd
        exact Or.inr (mem_utf8_percent_encode c d hd)
      · rw [if_neg h3] at hd
        rcases List.mem_singleton.mp hd with rfl
        exact Or.inl ⟨rfl, by simpa using h1, h3⟩

theorem utf8_bytes_ne_nil (n : Nat) : utf8_bytes n ≠ [] := by
  unfold utf8_bytes
  split
  · simp
  · split
    · simp
    · split <;> simp

theorem utf8_percent_encode_ne_nil (c : Char) : _utf8_percent_encode c ≠ [] := by
  unfold _utf8_percent_encode
  intro h
  rcases hb : utf8_bytes c.toNat with _ | ⟨b, bs⟩
  · exact utf8_bytes_ne_nil c.toNat hb
  · rw [hb] at h
    simp [List.flatMap_cons] at h

theorem sf_encode_char_ne_nil (c : Char) : sf_encode_char c ≠ [] := by
  unfold sf_encode_char
  split
  · exact utf8_percent_encode_ne_nil c
  · split
    · simp
    · split
      · exact utf8_percent_encode_ne_nil c
      · simp

theorem sf_encode_char_eq_self (c : Char) (h1 : sf_is_ctl c = false)
    (h2 : c ∉ SF_SPECIALS) : sf_encode_char c = [c] := by
  unfold sf_encode_char
  rw [if_neg (by simp [h1])]
  rw [if_neg (by intro hc; exact h2 (hc ▸ (by decide : ('/' : Char) ∈ SF_SPECIALS)))]
  rw [if_neg h2]

theorem sf_encode_ne_nil (name : List Char) (h : name ≠ []) :
    sf_encode name ≠ [] := by
  rcases name with _ | ⟨c, rest⟩
  · exact absurd rfl h
  · unfold sf_encode
    rw [List.flatMap_cons]
    intro hcontra
    exact sf_encode_char_ne_nil c (List.append_eq_nil.mp hcontra).1

theorem sf_encode_getLast? :
    ∀ (name : List Char) (c : Char), name.getLast? = some c →
    (sf_encode name).getLast? = (sf_encode_char c).getLast?
  | [], c, h => by simp at h
  | [x], c, h => by
    simp only [List.getLast?_singleton, Option.some_inj] at h
    subst h
    unfold sf_encode
    simp [List.flatMap_cons]
  | x :: y :: ys, c, h => by
    rw [List.getLast?_cons_cons] at h
    have ih := sf_encode_getLast? (y :: ys) c h
    unfold sf_encode at ih ⊢
    rw [List.flatMap_cons, List.getLast?_append, ih]
    exact Option.or_of_isSome
      (List.getLast?_isSome.mpr (sf_encode_char_ne_nil c))

theorem sf_encode_head? (name : List Char) (c : Char)
    (h : name.head? = some c) :
    (sf_encode name).head? = (sf_encode_char c).head? := by
  rcases name with _ | ⟨x, rest⟩
  · simp at h
  · simp only [List.head?_cons, Option.some_inj] at h
    subst h
    unfold sf_encode
    rw [List.flatMap_cons, List.head?_append]
    exact Option.or_of_isSome (List.head?_isSome.mpr (sf_encode_char_ne_nil x))

theorem sf_encode_id (name : List Char)
    (h : ∀ c ∈ name, sf_encode_char c = [c]) : sf_encode name = name := by
  induction name with
  | nil => rfl
  | cons c rest ih =>
    unfold sf_encode
    rw [List.flatMap_cons, h c (List.mem_cons_self _ _)]
    unfold sf_encode at ih
    rw [ih (fun d hd => h d (List.mem_cons_of_mem _ hd))]
    rfl

theorem takeWhile_append_all {α : Type} (p : α → Bool) (xs ys : List α)
    (h : xs.all p) : (xs ++ ys).takeWhile p = xs ++ ys.takeWhile p := by
  induction xs with
  | nil => simp
  | cons x rest ih =>
    simp only [List.all_cons, Bool.and_eq_true] at h
    simp only [List.cons_append, List.takeWhile_cons, h.1, if_true, ih h.2]

theorem takeWhile_append_mem_fail {α : Type} (p : α → Bool) (xs ys : List α)
    (h : ∃ x ∈ xs, p x = false) :
    (xs ++ ys).takeWhile p = xs.takeWhile p := by
  induction xs with
  | nil => obtain ⟨x, hx, _⟩ := h; simp at hx
  | cons x rest ih =>
    simp only [List.cons_append, List.takeWhile_cons]
    by_cases hp : p x = true
    · rw [if_pos hp, if_pos hp]
      obtain ⟨z, hz, hzp⟩ := h
      rcases List.mem_cons.mp hz with rfl | hz'
      · rw [hp] at hzp; exact absurd hzp (by simp)
      · rw [ih ⟨z, hz', hzp⟩]
    · rw [if_neg hp, if_neg hp]

theorem sf_encode_char_dot : sf_encode_char '.' = ['.'] := by decide

theorem sf_encode_char_no_dot (c : Char) (hc : c ≠ '.') :
    ∀ d ∈ sf_encode_char c, d ≠ '.' := by
  intro d hd
  rcases mem_sf_encode_char c d hd with ⟨rfl, _, _⟩ | rfl | hhex
  · exact hc
  · simp
  · intro hd2
    subst hd2
    exact absurd hhex (by decide)

/-- The percent-encoding loop commutes with taking the part before the first
dot: escapes never contain a dot and a dot is encoded as itself. -/
theorem sf_encode_takeWhile_dot (name : List Char) :
    (sf_encode name).takeWhile (fun c => c ≠ '.') =
      sf_encode (name.takeWhile (fun c => c ≠ '.')) := by
  induction name with
  | nil => rfl
  | cons c rest ih =>
    by_cases hc : c = '.'
    · subst hc
      unfold sf_encode
      rw [List.flatMap_cons, sf_encode_char_dot]
      simp [List.takeWhile_cons]
    · unfold sf_encode
      rw [List.flatMap_cons]
      rw [takeWhile_append_all _ _ _ (List.all_eq_true.mpr
        (fun d hd => decide_eq_true (sf_encode_char_no_dot c hc d hd)))]
      unfold sf_encode at ih
      rw [ih]
      rw [show (c :: rest).takeWhile (fun c => c ≠ '.') =
        c :: rest.takeWhile (fun c => c ≠ '.') by
        simp [List.takeWhile_cons, hc]]
      rw [List.flatMap_cons]

theorem head?_dropWhile_not {α : Type} (p : α → Bool) :
    ∀ (l : List α) (c : α), (l.dropWhile p).head? = some c → p c = false := by
  intro l
  induction l with
  | nil => intro c h; simp [List.dropWhile] at h
  | cons x rest ih =>
    intro c h
    rw [List.dropWhile_cons] at h
    by_cases hp : p x = true
    · rw [if_pos hp] at h
      exact ih c h
    · rw [if_neg hp] at h
      simp only [List.head?_cons, Option.some_inj] at h
      subst h
      simpa using hp

theorem getLast?_dropWhile_ne_nil {α : Type} (p : α → Bool) :
    ∀ (l : List α), l.dropWhile p ≠ [] →
      (l.dropWhile p).getLast? = l.getLast? := by
  intro l
  induction l with
  | nil => intro h; simp [List.dropWhile] at h
  | cons x rest ih =>
    intro h
    rw [List.dropWhile_cons] at h ⊢
    by_cases hp : p x = true
    · rw [if_pos hp] at h ⊢
      have hrest : rest ≠ [] := by
        intro hr
        rw [hr] at h
        simp [List.dropWhile] at h
      rw [ih h]
      rcases hr2 : rest with _ | ⟨y, ys⟩
      · exact absurd hr2 hrest
      · rw [List.getLast?_cons_cons]
    · rw [if_neg hp]

theorem py_strip_chars_getLast_not_space (s : List Char) (c : Char)
    (h : (py_strip_chars s).getLast? = some c) : py_is_space c = false := by
  unfold py_strip_chars at h
  rw [List.getLast?_reverse] at h
  exact head?_dropWhile_not py_is_space _ c h

theorem py_strip_chars_head_not_space (s : List Char) (c : Char)
    (h : (py_strip_chars s).head? = some c) : py_is_space c = false := by
  unfold py_strip_chars at h
  rw [List.head?_reverse] at h
  have hne : (s.dropWhile py_is_space).reverse.dropWhile py_is_space ≠ [] := by
    intro hnil
    rw [hnil] at h
    simp at h
  rw [getLast?_dropWhile_ne_nil py_is_space _ hne, List.getLast?_reverse] at h
  exact head?_dropWhile_not py_is_space _ c h

theorem dropWhile_eq_self_of_head {α : Type} (p : α → Bool) (l : List α)
    (h : ∀ c, l.head? = some c → p c = false) : l.dropWhile p = l := by
  rcases l with _ | ⟨x, rest⟩
  · rfl
  · rw [List.dropWhile_cons, if_neg (by simp [h x rfl])]

theorem py_strip_chars_eq_self (l : List Char)
    (hhead : ∀ c, l.head? = some c → py_is_space c = false)
    (hlast : ∀ c, l.getLast? = some c → py_is_space c = false) :
    py_strip_chars l = l := by
  unfold py_strip_chars
  rw [dropWhile_eq_self_of_head py_is_space l hhead]
  rw [dropWhile_eq_self_of_head py_is_space l.reverse
    (by
      intro c hc
      rw [List.head?_reverse] at hc
      exact hlast c hc)]
  exact List.reverse_reverse l

theorem getLast?_cons_of_ne_nil {α : Type} (x : α) (l : List α) (h : l ≠ []) :
    (x :: l).getLast? = l.getLast? := by
  rcases l with _ | ⟨y, ys⟩
  · exact absurd rfl h
  · exact List.getLast?_cons_cons

/-- The pre-encoding pipeline of `_safe_filename`: normalization and the four
name fix-ups, before the percent-encoding loop. -/
def sf_pre_encode (nfc : List Char → List Char)
    (input_name : Option (List Char)) : List Char :=
  sf_trailing_fix (sf_reserved_fix (sf_dot_fix (sf_empty_fix
    (py_strip_chars (nfc (input_name.getD []))))))

theorem sf_empty_fix_ne_nil (n : List Char) : sf_empty_fix n ≠ [] := by
  unfold sf_empty_fix
  by_cases h : (n.isEmpty || n.all sf_is_ctl) = true
  · rw [if_pos h]; decide
  · rw [if_neg h]
    intro hn
    subst hn
    simp at h

theorem sf_dot_fix_ne_nil (n : List Char) (h : n ≠ []) : sf_dot_fix n ≠ [] := by
  unfold sf_dot_fix
  by_cases hc : n = ['.'] ∨ n = ['.', '.']
  · rw [if_pos hc]; simp
  · rw [if_neg hc]; exact h

theorem sf_reserved_fix_ne_nil (n : List Char) (h : n ≠ []) :
    sf_reserved_fix n ≠ [] := by
  unfold sf_reserved_fix
  by_cases hc : sf_raw_base n ∈ WIN_RESERVED_CHARS
  · rw [if_pos hc]; simp
  · rw [if_neg hc]; exact h

theorem sf_trailing_fix_ne_nil (n : List Char) (h : n ≠ []) :
    sf_trailing_fix n ≠ [] := by
  unfold sf_trailing_fix
  rcases hg : n.getLast? with _ | c
  · exact h
  · show (if c = ' ' ∨ c = '.' then n.dropLast ++ ['_'] else n) ≠ []
    by_cases hc : c = ' ' ∨ c = '.'
    · rw [if_pos hc]; simp
    · rw [if_neg hc]; exact h

theorem sf_dot_fix_getLast? (n : List Char) (h : n ≠ []) :
    (sf_dot_fix n).getLast? = n.getLast? := by
  unfold sf_dot_fix
  by_cases hc : n = ['.'] ∨ n = ['.', '.']
  · rw [if_pos hc]
    exact getLast?_cons_of_ne_nil '_' n h
  · rw [if_neg hc]

theorem sf_reserved_fix_getLast? (n : List Char) (h : n ≠ []) :
    (sf_reserved_fix n).getLast? = n.getLast? := by
  unfold sf_reserved_fix
  by_cases hc : sf_raw_base n ∈ WIN_RESERVED_CHARS
  · rw [if_pos hc]
    exact getLast?_cons_of_ne_nil '_' n h
  · rw [if_neg hc]

theorem sf_empty_fix_getLast_not_space (n : List Char) (s : List Char)
    (hn : n = sf_empty_fix (py_strip_chars s)) (c : Char)
    (h : n.getLast? = some c) : py_is_space c = false := by
  unfold sf_empty_fix at hn
  by_cases hcond :
      ((py_strip_chars s).isEmpty || (py_strip_chars s).all sf_is_ctl) = true
  · rw [if_pos hcond] at hn
    subst hn
    have : c = 'E' := by
      have : (DEFAULT_NAME_CHARS.getLast? = some 'E') := by decide
      rw [this] at h
      exact (Option.some_inj.mp h).symm
    subst this
    decide
  · rw [if_neg hcond] at hn
    subst hn
    exact py_strip_chars_getLast_not_space s c h

theorem sf_dot_fix_head? (n : List Char) (c : Char)
    (h : (sf_dot_fix n).head? = some c) : c = '_' ∨ n.head? = some c := by
  unfold sf_dot_fix at h
  by_cases hc : n = ['.'] ∨ n = ['.', '.']
  · rw [if_pos hc] at h
    simp only [List.head?_cons, Option.some_inj] at h
    exact Or.inl h.symm
  · rw [if_neg hc] at h
    exact Or.inr h

theorem sf_reserved_fix_head? (n : List Char) (c : Char)
    (h : (sf_reserved_fix n).head? = some c) : c = '_' ∨ n.head? = some c := by
  unfold sf_reserved_fix at h
  by_cases hc : sf_raw_base n ∈ WIN_RESERVED_CHARS
  · rw [if_pos hc] at h
    simp only [List.head?_cons, Option.some_inj] at h
    exact Or.inl h.symm
  · rw [if_neg hc] at h
    exact Or.inr h

theorem sf_empty_fix_head_not_space (s : List Char) (c : Char)
    (h : (sf_empty_fix (py_strip_chars s)).head? = some c) :
    py_is_space c = false := by
  unfold sf_empty_fix at h
  by_cases hcond :
      ((py_strip_chars s).isEmpty || (py_strip_chars s).all sf_is_ctl) = true
  · rw [if_pos hcond] at h
    have : c = 'I' := by
      have hd : (DEFAULT_NAME_CHARS.head? = some 'I') := by decide
      rw [hd] at h
      exact (Option.some_inj.mp h).symm
    subst this
    decide
  · rw [if_neg hcond] at h
    exact py_strip_chars_head_not_space s c h

theorem reserved_no_underscore :
    ∀ w ∈ WIN_RESERVED_CHARS, '_' ∉ w := by decide

theorem reserved_no_percent :
    ∀ w ∈ WIN_RESERVED_CHARS, '%' ∉ w := by decide

theorem reserved_no_dot :
    ∀ w ∈ WIN_RESERVED_CHARS, '.' ∉ w := by decide

theorem sf_raw_base_cons_underscore (n : List Char) :
    sf_raw_base ('_' :: n) = '_' :: sf_raw_base n := by
  unfold sf_raw_base
  rw [List.takeWhile_cons]
  simp only [show (decide (('_' : Char) ≠ '.')) = true from by decide, if_true,
    List.map_cons]
  rw [show py_char_lower '_' = '_' from by decide]

theorem sf_reserved_fix_base_not_reserved (n : List Char) :
    sf_raw_base (sf_reserved_fix n) ∉ WIN_RESERVED_CHARS := by
  unfold sf_reserved_fix
  by_cases hc : sf_raw_base n ∈ WIN_RESERVED_CHARS
  · rw [if_pos hc, sf_raw_base_cons_underscore]
    intro hmem
    exact reserved_no_underscore _ hmem (List.mem_cons_self _ _)
  · rw [if_neg hc]
    exact hc

theorem sf_trailing_fix_base_not_reserved (n : List Char)
    (h : sf_raw_base n ∉ WIN_RESERVED_CHARS) :
    sf_raw_base (sf_trailing_fix n) ∉ WIN_RESERVED_CHARS := by
  unfold sf_trailing_fix
  rcases hg : n.getLast? with _ | a
  · exact h
  · show sf_raw_base (if a = ' ' ∨ a = '.' then n.dropLast ++ ['_'] else n)
      ∉ WIN_RESERVED_CHARS
    by_cases hc : a = ' ' ∨ a = '.'
    · rw [if_pos hc]
      have hne : n ≠ [] := by
        intro h0
        rw [h0] at hg
        simp at hg
      have hlast : n.getLast hne = a := by
        rw [List.getLast?_eq_getLast n hne] at hg
        exact Option.some_inj.mp hg
      have hsplit : n.dropLast ++ [a] = n := by
        rw [← hlast]
        exact List.dropLast_append_getLast hne
      by_cases hdot : ∃ x ∈ n.dropLast, (decide (x ≠ '.')) = false
      · intro hmem
        apply h
        unfold sf_raw_base at hmem ⊢
        rw [takeWhile_append_mem_fail _ _ _ hdot] at hmem
        rw [← hsplit, takeWhile_append_mem_fail _ _ _ hdot]
        exact hmem
      · intro hmem
        have hall : n.dropLast.all (fun c => decide (c ≠ '.')) = true := by
          rw [List.all_eq_true]
          intro x hx
          by_cases hxv : (decide (x ≠ '.')) = true
          · exact hxv
          · exact absurd ⟨x, hx, Bool.eq_false_iff.mpr hxv⟩ hdot
        unfold sf_raw_base at hmem
        rw [takeWhile_append_all _ _ _ hall] at hmem
        rw [show (['_'] : List Char).takeWhile (fun c => decide (c ≠ '.'))
          = ['_'] from by decide] at hmem
        rw [List.map_append] at hmem
        refine reserved_no_underscore _ hmem ?_
        apply List.mem_append_right
        rw [show (['_'] : List Char).map py_char_lower = ['_'] from by decide]
        exact List.mem_cons_self _ _
    · rw [if_neg hc]
      exact h

theorem sf_pre_encode_facts (nfc : List Char → List Char)
    (input_name : Option (List Char)) :
    sf_pre_encode nfc input_name ≠ [] ∧
    (∀ c, (sf_pre_encode nfc input_name).getLast? = some c →
      py_is_space c = false ∧ c ≠ '.' ∧ c ≠ ' ') ∧
    (∀ c, (sf_pre_encode nfc input_name).head? = some c →
      py_is_space c = false) ∧
    sf_raw_base (sf_pre_encode nfc input_name) ∉ WIN_RESERVED_CHARS := by
  unfold sf_pre_encode
  set s := nfc (input_name.getD []) with hs
  set n1 := sf_empty_fix (py_strip_chars s) with hn1
  have h1ne : n1 ≠ [] := sf_empty_fix_ne_nil _
  set n2 := sf_dot_fix n1 with hn2
  have h2ne : n2 ≠ [] := sf_dot_fix_ne_nil _ h1ne
  set n3 := sf_reserved_fix n2 with hn3
  have h3ne : n3 ≠ [] := sf_reserved_fix_ne_nil _ h2ne
  have h3last : ∀ c, n3.getLast? = some c → py_is_space c = false := by
    intro c hc
    rw [hn3, sf_reserved_fix_getLast? n2 h2ne, hn2,
      sf_dot_fix_getLast? n1 h1ne] at hc
    exact sf_empty_fix_getLast_not_space n1 s hn1 c hc
  have h3head : ∀ c, n3.head? = some c → py_is_space c = false := by
    intro c hc
    rcases sf_reserved_fix_head? n2 c (hn3 ▸ hc) with rfl | hc2
    · decide
    · rcases sf_dot_fix_head? n1 c (hn2 ▸ hc2) with rfl | hc3
      · decide
      · exact sf_empty_fix_head_not_space s c (hn1 ▸ hc3)
  refine ⟨sf_trailing_fix_ne_nil n3 h3ne, ?_, ?_, ?_⟩
  · intro c hc
    unfold sf_trailing_fix at hc
    rcases hg : n3.getLast? with _ | a
    · rw [hg] at hc
      rw [List.getLast?_eq_none_iff] at hg
      exact absurd hg h3ne
    · rw [hg] at hc
      have hc' : (if a = ' ' ∨ a = '.' then n3.dropLast ++ ['_'] else n3).getLast?
          = some c := hc
      by_cases hfire : a = ' ' ∨ a = '.'
      · rw [if_pos hfire, List.getLast?_concat] at hc'
        have : c = '_' := (Option.some_inj.mp hc').symm
        subst this
        refine ⟨by decide, by decide, by decide⟩
      · rw [if_neg hfire] at hc'
        rw [hg] at hc'
        have : c = a := (Option.some_inj.mp hc').symm
        subst this
        refine ⟨h3last c hg, ?_, ?_⟩
        · intro h0
          exact hfire (Or.inr h0)
        · intro h0
          exact hfire (Or.inl h0)
  · intro c hc
    unfold sf_trailing_fix at hc
    rcases hg : n3.getLast? with _ | a
    · rw [hg] at hc
      exact h3head c hc
    · rw [hg] at hc
      have hc' : (if a = ' ' ∨ a = '.' then n3.dropLast ++ ['_'] else n3).head?
          = some c := hc
      by_cases hfire : a = ' ' ∨ a = '.'
      · rw [if_pos hfire] at hc'
        rcases hd : n3 with _ | ⟨x, xs⟩
        · exact absurd hd h3ne
        · rcases hxs : xs with _ | ⟨y, ys⟩
          · rw [hd, hxs] at hc'
            simp only [List.dropLast_single, List.nil_append,
              List.head?_cons, Option.some_inj] at hc'
            subst hc'
            decide
          · rw [hd, hxs] at hc'
            rw [show ((x :: y :: ys).dropLast) = x :: (y :: ys).dropLast from
              rfl] at hc'
            simp only [List.cons_append, List.head?_cons,
              Option.some_inj] at hc'
            rw [← hc']
            exact h3head x (by rw [hd]; rfl)
      · rw [if_neg hfire] at hc'
        exact h3head c hc'
  · exact sf_trailing_fix_base_not_reserved n3
      (hn3 ▸ sf_reserved_fix_base_not_reserved n2)

theorem hex_chars_safe : ∀ d ∈ HEX_CHARS,
    sf_is_ctl d = false ∧ d ∉ SF_SPECIALS ∧ py_is_space d = false ∧
    d ≠ '.' ∧ d ≠ ' ' := by decide

theorem percent_safe :
    sf_is_ctl '%' = false ∧ '%' ∉ SF_SPECIALS ∧ py_is_space '%' = false ∧
    ('%' : Char) ≠ '.' ∧ ('%' : Char) ≠ ' ' := by decide

theorem sf_encode_all_safe (n : List Char) :
    ∀ d ∈ sf_encode n, sf_is_ctl d = false ∧ d ∉ SF_SPECIALS := by
  intro d hd
  unfold sf_encode at hd
  obtain ⟨c, _, hdc⟩ := List.mem_flatMap.mp hd
  rcases mem_sf_encode_char c d hdc with ⟨rfl, hctl, hsp⟩ | hrest
  · exact ⟨hctl, hsp⟩
  · rcases hrest with rfl | hhex
    · exact ⟨percent_safe.1, percent_safe.2.1⟩
    · exact ⟨(hex_chars_safe d hhex).1, (hex_chars_safe d hhex).2.1⟩

theorem percent_mem_utf8_percent_encode (c : Char) :
    '%' ∈ _utf8_percent_encode c := by
  unfold _utf8_percent_encode
  rcases hb : utf8_bytes c.toNat with _ | ⟨b, bs⟩
  · exact absurd hb (utf8_bytes_ne_nil c.toNat)
  · rw [List.flatMap_cons]
    exact List.mem_append_left _ (List.mem_cons_self _ _)

theorem percent_mem_sf_encode_char (c : Char) (h : sf_encode_char c ≠ [c]) :
    '%' ∈ sf_encode_char c := by
  unfold sf_encode_char at h ⊢
  by_cases h1 : sf_is_ctl c = true
  · rw [if_pos h1] at h ⊢
    exact percent_mem_utf8_percent_encode c
  · rw [if_neg h1] at h ⊢
    by_cases h2 : c = '/'
    · rw [if_pos h2] at h ⊢
      exact List.mem_cons_self _ _
    · rw [if_neg h2] at h ⊢
      by_cases h3 : c ∈ SF_SPECIALS
      · rw [if_pos h3] at h ⊢
        exact percent_mem_utf8_percent_encode c
      · rw [if_neg h3] at h
        exact absurd rfl h

theorem takeWhile_all_eq_self {α : Type} (p : α → Bool) (l : List α)
    (h : ∀ x ∈ l, p x = true) : l.takeWhile p = l := by
  induction l with
  | nil => rfl
  | cons x rest ih =>
    rw [List.takeWhile_cons, if_pos (h x (List.mem_cons_self _ _)),
      ih (fun y hy => h y (List.mem_cons_of_mem _ hy))]

theorem sf_encode_base_not_reserved (n : List Char)
    (h : sf_raw_base n ∉ WIN_RESERVED_CHARS) :
    sf_raw_base (sf_encode n) ∉ WIN_RESERVED_CHARS := by
  intro hmem
  unfold sf_raw_base at hmem
  rw [sf_encode_takeWhile_dot] at hmem
  by_cases hall : ∀ c ∈ n.takeWhile (fun c => decide (c ≠ '.')),
      sf_encode_char c = [c]
  · rw [sf_encode_id _ hall] at hmem
    exact h hmem
  · push_neg at hall
    obtain ⟨c, hc, hcne⟩ := hall
    have hpm : '%' ∈ sf_encode (n.takeWhile (fun c => decide (c ≠ '.'))) := by
      unfold sf_encode
      exact List.mem_flatMap.mpr ⟨c, hc, percent_mem_sf_encode_char c hcne⟩
    have : '%' ∈ (sf_encode (n.takeWhile (fun c => decide (c ≠ '.')))).map
        py_char_lower := by
      rw [show ('%' : Char) = py_char_lower '%' from by decide]
      exact List.mem_map_of_mem py_char_lower hpm
    exact reserved_no_percent _ hmem this

theorem sf_encode_whole_not_reserved (n : List Char)
    (h : sf_raw_base n ∉ WIN_RESERVED_CHARS) :
    (sf_encode n).map py_char_lower ∉ WIN_RESERVED_CHARS := by
  intro hmem
  have hnodot : ∀ d ∈ sf_encode n, (decide (d ≠ '.')) = true := by
    intro d hd
    rw [decide_eq_true_eq]
    intro hdd
    subst hdd
    refine reserved_no_dot _ hmem ?_
    rw [show ('.' : Char) = py_char_lower '.' from by decide]
    exact List.mem_map_of_mem py_char_lower hd
  have := sf_encode_base_not_reserved n h
  unfold sf_raw_base at this
  rw [takeWhile_all_eq_self _ _ hnodot] at this
  exact this hmem

theorem sf_encode_not_dots (n : List Char) (hne : n ≠ [])
    (hlast : ∀ c, n.getLast? = some c → c ≠ '.') :
    sf_encode n ≠ ['.'] ∧ sf_encode n ≠ ['.', '.'] := by
  have hld : (sf_encode n).getLast? ≠ some '.' := by
    obtain ⟨a, ha⟩ := Option.isSome_iff_exists.mp
      (List.getLast?_isSome.mpr hne)
    rw [sf_encode_getLast? n a ha]
    intro hcontra
    have hmem : '.' ∈ sf_encode_char a :=
      List.mem_of_getLast?_eq_some hcontra
    rcases mem_sf_encode_char a '.' hmem with ⟨he, _, _⟩ | hrest
    · exact hlast a ha he.symm
    · rcases hrest with he | hhex
      · exact absurd he (by decide)
      · exact absurd hhex (by decide)
  constructor
  · intro hcontra
    rw [hcontra] at hld
    exact hld rfl
  · intro hcontra
    rw [hcontra] at hld
    exact hld rfl

theorem sf_encode_head_not_space (n : List Char)
    (hh : ∀ c, n.head? = some c → py_is_space c = false) :
    ∀ c, (sf_encode n).head? = some c → py_is_space c = false := by
  intro c hc
  rcases hn : n with _ | ⟨a, rest⟩
  · rw [hn] at hc
    simp [sf_encode] at hc
  · rw [hn] at hc
    rw [sf_encode_head? (a :: rest) a rfl] at hc
    have hmem : c ∈ sf_encode_char a := List.mem_of_mem_head? hc
    rcases mem_sf_encode_char a c hmem with ⟨rfl, _, _⟩ | hrest
    · exact hh c (by rw [hn]; rfl)
    · rcases hrest with rfl | hhex
      · exact percent_safe.2.2.1
      · exact (hex_chars_safe c hhex).2.2.1

theorem sf_encode_getLast_props (n : List Char) (hne : n ≠ [])
    (hl : ∀ c, n.getLast? = some c →
      py_is_space c = false ∧ c ≠ '.' ∧ c ≠ ' ') :
    ∀ c, (sf_encode n).getLast? = some c →
      py_is_space c = false ∧ c ≠ '.' ∧ c ≠ ' ' := by
  intro c hc
  obtain ⟨a, ha⟩ := Option.isSome_iff_exists.mp (List.getLast?_isSome.mpr hne)
  rw [sf_encode_getLast? n a ha] at hc
  have hmem : c ∈ sf_encode_char a := List.mem_of_getLast?_eq_some hc
  rcases mem_sf_encode_char a c hmem with ⟨rfl, _, _⟩ | hrest
  · exact hl c ha
  · rcases hrest with rfl | hhex
    · exact ⟨percent_safe.2.2.1, percent_safe.2.2.2.1, percent_safe.2.2.2.2⟩
    · exact ⟨(hex_chars_safe c hhex).2.2.1, (hex_chars_safe c hhex).2.2.2.1,
        (hex_chars_safe c hhex).2.2.2.2⟩

/-- `_safe_filename` reduces to the percent-encoding of the pre-encode
pipeline output: the two emptiness fallbacks never fire, because the first
fix-up already made the name non-empty. -/
theorem _safe_filename_eq_encode (nfc : List Char → List Char)
    (input_name : Option (List Char)) :
    _safe_filename nfc input_name = sf_encode (sf_pre_encode nfc input_name) := by
  unfold _safe_filename
  have h4 : sf_pre_encode nfc input_name ≠ [] :=
    (sf_pre_encode_facts nfc input_name).1
  have h5 : sf_empty_fix2 (sf_trailing_fix (sf_reserved_fix (sf_dot_fix
      (sf_empty_fix (py_strip_chars (nfc (input_name.getD []))))))) =
      sf_pre_encode nfc input_name := by
    unfold sf_empty_fix2
    rw [if_neg (by
      rw [Bool.not_eq_true, List.isEmpty_eq_false]
      exact h4)]
    rfl
  rw [h5]
  rw [if_neg (by
    rw [Bool.not_eq_true, List.isEmpty_eq_false]
    exact sf_encode_ne_nil _ h4)]

/-- Any name with the output invariants of `_safe_filename` (given that the
normalizer also fixes it) is a fixed point of `_safe_filename`. -/
theorem sf_safe_fixed_point (nfc : List Char → List Char) (y : List Char)
    (hne : y ≠ [])
    (hsafe : ∀ c ∈ y, sf_is_ctl c = false ∧ c ∉ SF_SPECIALS)
    (hhead : ∀ c, y.head? = some c → py_is_space c = false)
    (hlast : ∀ c, y.getLast? = some c →
      py_is_space c = false ∧ c ≠ '.' ∧ c ≠ ' ')
    (hdots : y ≠ ['.'] ∧ y ≠ ['.', '.'])
    (hbase : sf_raw_base y ∉ WIN_RESERVED_CHARS)
    (hfix : nfc y = y) :
    _safe_filename nfc (some y) = y := by
  have hstrip : py_strip_chars y = y :=
    py_strip_chars_eq_self y hhead (fun c hc => (hlast c hc).1)
  have hempty : sf_empty_fix y = y := by
    unfold sf_empty_fix
    rw [if_neg]
    rw [Bool.or_eq_true, not_or]
    constructor
    · rw [Bool.not_eq_true, List.isEmpty_eq_false]
      exact hne
    · rw [Bool.not_eq_true]
      rcases hy : y with _ | ⟨a, rest⟩
      · exact absurd hy hne
      · rw [List.all_cons, Bool.and_eq_false_iff]
        exact Or.inl (hsafe a (by rw [hy]; exact List.mem_cons_self _ _)).1
  have hdot : sf_dot_fix y = y := by
    unfold sf_dot_fix
    rw [if_neg]
    intro hcontra
    rcases hcontra with h1 | h2
    · exact hdots.1 h1
    · exact hdots.2 h2
  have hres : sf_reserved_fix y = y := by
    unfold sf_reserved_fix
    rw [if_neg hbase]
  have htrail : sf_trailing_fix y = y := by
    unfold sf_trailing_fix
    rcases hg : y.getLast? with _ | a
    · rfl
    · show (if a = ' ' ∨ a = '.' then y.dropLast ++ ['_'] else y) = y
      rw [if_neg]
      intro hcontra
      rcases hcontra with h1 | h2
      · exact (hlast a hg).2.2 h1
      · exact (hlast a hg).2.1 h2
  have hempty2 : sf_empty_fix2 y = y := by
    unfold sf_empty_fix2
    rw [if_neg (by
      rw [Bool.not_eq_true, List.isEmpty_eq_false]
      exact hne)]
  have henc : sf_encode y = y :=
    sf_encode_id y
      (fun c hc => sf_encode_char_eq_self c (hsafe c hc).1 (hsafe c hc).2)
  unfold _safe_filename
  rw [show (some y).getD ([] : List Char) = y from rfl]
  rw [hfix, hstrip, hempty, hdot, hres, htrail, hempty2, henc]
  rw [if_neg (by
    rw [Bool.not_eq_true, List.isEmpty_eq_false]
    exact hne)]

/-- **C7** (amended).  For every normalizer and every input (absent, empty,
control-only, reserved, trailing dot/space, ...), `_safe_filename` returns a
non-empty name containing no control characters and none of the characters
`< > : " / \ | ? *` (hence no path separator), which is neither `"."` nor
`".."` nor — case-insensitively — a bare reserved device name; and whenever
the normalizer fixes that output, re-applying `_safe_filename` returns it
unchanged.  The claimed *unconditional* idempotence is refuted separately:
the real NFC normalizer can merge a percent-escape with a following combining
mark. -/
theorem _safe_filename_spec (nfc : List Char → List Char)
    (input_name : Option (List Char)) :
    _safe_filename nfc input_name ≠ [] ∧
    (∀ c ∈ _safe_filename nfc input_name,
      sf_is_ctl c = false ∧ c ∉ SF_SPECIALS) ∧
    _safe_filename nfc input_name ≠ ['.'] ∧
    _safe_filename nfc input_name ≠ ['.', '.'] ∧
    (_safe_filename nfc input_name).map py_char_lower ∉ WIN_RESERVED_CHARS ∧
    (nfc (_safe_filename nfc input_name) = _safe_filename nfc input_name →
      _safe_filename nfc (some (_safe_filename nfc input_name)) =
        _safe_filename nfc input_name) := by
  have hfacts := sf_pre_encode_facts nfc input_name
  have heq := _safe_filename_eq_encode nfc input_name
  rw [heq]
  have hdots := sf_encode_not_dots (sf_pre_encode nfc input_name) hfacts.1
    (fun c hc => (hfacts.2.1 c hc).2.1)
  refine ⟨sf_encode_ne_nil _ hfacts.1, sf_encode_all_safe _, hdots.1, hdots.2,
    sf_encode_whole_not_reserved _ hfacts.2.2.2, ?_⟩
  intro hfix
  exact sf_safe_fixed_point nfc (sf_encode (sf_pre_encode nfc input_name))
    (sf_encode_ne_nil _ hfacts.1)
    (sf_encode_all_safe _)
    (sf_encode_head_not_space _ hfacts.2.2.1)
    (sf_encode_getLast_props _ hfacts.1 hfacts.2.1)
    hdots
    (sf_encode_base_not_reserved _ hfacts.2.2.2)
    hfix

/-- **C7, witness.**  With the identity normalizer: the reserved name `"con"`
maps to `"_con"`, which satisfies every conjunct, and re-application returns
it unchanged. -/
theorem _safe_filename_spec_witness :
    _safe_filename (fun s => s) (some ("con".toList)) = "_con".toList ∧
    _safe_filename (fun s => s)
        (some (_safe_filename (fun s => s) (some ("con".toList)))) =
      _safe_filename (fun s => s) (some ("con".toList)) := by
  have h := _safe_filename_spec (fun s => s) (some ("con".toList))
  exact ⟨by decide, h.2.2.2.2.2 rfl⟩

/-- A model of one NFC composition rule: LATIN CAPITAL LETTER C followed by
COMBINING ACUTE ACCENT (U+0301) composes to the precomposed U+0106.  Real
`unicodedata.normalize("NFC", ...)` performs exactly this rewriting on such
pairs; the model is idempotent and is the identity on ASCII-only strings. -/
def nfc_compose_c_acute : List Char → List Char
  | [] => []
  | [c] => [c]
  | c :: d :: rest =>
    if c = 'C' ∧ d = Char.ofNat 0x301
    then Char.ofNat 0x106 :: nfc_compose_c_acute rest
    else c :: nfc_compose_c_acute (d :: rest)

theorem nfc_cca_head (d : Char) (rest : List Char) :
    (nfc_compose_c_acute (d :: rest)).head? = some d ∨
    (nfc_compose_c_acute (d :: rest)).head? = some (Char.ofNat 0x106) := by
  rcases rest with _ | ⟨r, rs⟩
  · exact Or.inl rfl
  · show (if d = 'C' ∧ r = Char.ofNat 0x301
      then Char.ofNat 0x106 :: nfc_compose_c_acute rs
      else d :: nfc_compose_c_acute (r :: rs)).head? = some d ∨
      (if d = 'C' ∧ r = Char.ofNat 0x301
      then Char.ofNat 0x106 :: nfc_compose_c_acute rs
      else d :: nfc_compose_c_acute (r :: rs)).head? = some (Char.ofNat 0x106)
    by_cases h : d = 'C' ∧ r = Char.ofNat 0x301
    · rw [if_pos h]
      exact Or.inr rfl
    · rw [if_neg h]
      exact Or.inl rfl

theorem nfc_cca_idem (s : List Char) :
    nfc_compose_c_acute (nfc_compose_c_acute s) = nfc_compose_c_acute s := by
  induction s using nfc_compose_c_acute.induct with
  | case1 => rfl
  | case2 c => rfl
  | case3 c d rest hcond ih =>
    obtain ⟨rfl, rfl⟩ := hcond
    show nfc_compose_c_acute (Char.ofNat 0x106 :: nfc_compose_c_acute rest) =
      Char.ofNat 0x106 :: nfc_compose_c_acute rest
    rcases hr : nfc_compose_c_acute rest with _ | ⟨e, es⟩
    · rfl
    · show (if Char.ofNat 0x106 = 'C' ∧ e = Char.ofNat 0x301
        then Char.ofNat 0x106 :: nfc_compose_c_acute es
        else Char.ofNat 0x106 :: nfc_compose_c_acute (e :: es)) = _
      rw [if_neg (by
        intro hc
        exact absurd hc.1 (by decide))]
      rw [← hr, ih, hr]
  | case4 c d rest hcond ih =>
    rw [show nfc_compose_c_acute (c :: d :: rest) =
      (if c = 'C' ∧ d = Char.ofNat 0x301
       then Char.ofNat 0x106 :: nfc_compose_c_acute rest
       else c :: nfc_compose_c_acute (d :: rest)) from rfl]
    rw [if_neg hcond]
    rcases hr : nfc_compose_c_acute (d :: rest) with _ | ⟨e, es⟩
    · rcases nfc_cca_head d rest with h | h <;> rw [hr] at h <;> simp at h
    · have hno : ¬(c = 'C' ∧ e = Char.ofNat 0x301) := by
        rintro ⟨rfl, rfl⟩
        rcases nfc_cca_head d rest with h | h
        · rw [hr] at h
          simp only [List.head?_cons, Option.some_inj] at h
          exact hcond ⟨rfl, h.symm⟩
        · rw [hr] at h
          simp only [List.head?_cons, Option.some_inj] at h
          exact absurd h (by decide)
      show (if c = 'C' ∧ e = Char.ofNat 0x301
        then Char.ofNat 0x106 :: nfc_compose_c_acute es
        else c :: nfc_compose_c_acute (e :: es)) = _
      rw [if_neg hno, ← hr, ih, hr]

theorem nfc_cca_ascii (s : List Char) (h : ∀ c ∈ s, c.toNat < 128) :
    nfc_compose_c_acute s = s := by
  induction s using nfc_compose_c_acute.induct with
  | case1 => rfl
  | case2 c => rfl
  | case3 c d rest hcond ih =>
    obtain ⟨rfl, rfl⟩ := hcond
    have := h (Char.ofNat 0x301)
      (List.mem_cons_of_mem _ (List.mem_cons_self _ _))
    exact absurd this (by decide)
  | case4 c d rest hcond ih =>
    show (if c = 'C' ∧ d = Char.ofNat 0x301
      then Char.ofNat 0x106 :: nfc_compose_c_acute rest
      else c :: nfc_compose_c_acute (d :: rest)) = _
    rw [if_neg hcond,
      ih (fun x hx => h x (List.mem_cons_of_mem _ hx))]

/-- **C7, counterexample.**  `_safe_filename` is *not* unconditionally
idempotent: under a normalizer observing the genuine NFC composition
`'C' + U+0301 → U+0106` (the model is idempotent and the identity on ASCII,
as NFC is), the input `"<" + U+0301` first maps to `"%3C" + U+0301`, but
re-applying the function normalizes the escape's `C` together with the
combining accent into `Ć`, returning the different name `"%3Ć"`. -/
theorem _safe_filename_not_idempotent :
    (∀ s, nfc_compose_c_acute (nfc_compose_c_acute s) =
      nfc_compose_c_acute s) ∧
    (∀ s, (∀ c ∈ s, c.toNat < 128) → nfc_compose_c_acute s = s) ∧
    _safe_filename nfc_compose_c_acute
        (some (_safe_filename nfc_compose_c_acute
          (some ['<', Char.ofNat 0x301]))) ≠
      _safe_filename nfc_compose_c_acute (some ['<', Char.ofNat 0x301]) := by
  refine ⟨nfc_cca_idem, nfc_cca_ascii, ?_⟩
  decide
